import Mathlib

/-! The partitioned 1-D heat stencil of `include/stencil.h`.

A shallow embedding of `idx`, `partition_data`, `stepper::heat`,
`stepper::heat_part` and `stepper::do_work`.

Modelling conventions.

* `std::size_t` values are natural numbers below `2 ^ 64`; the places where
  the source relies on wraparound (`i - 1`, `i + size`, `size - 1`) reduce
  modulo `2 ^ 64` explicitly.
* `double` is an arbitrary carrier `R` with the operations the source uses
  (`+`, `-`, `*`, `/` and the conversion of an unsigned integer).  Structural
  results hold for every such carrier; algebraic results are stated over a
  field, that is over exact arithmetic.  `Dbl` is such a carrier with the
  rounding, the infinities and the NaN of IEEE 754 binary64; the two identities
  that hold over a field and fail on it are evaluated there.
* Undefined behaviour (an index outside the allocation, a read of a cell that
  was never written, a remainder by zero, a future without a value) is the
  `none` branch of an `Option`.
* A future is modelled by the value it resolves to; `hpx::for_each` visits its
  index range in the order of the list it is given.
-/

set_option linter.unusedSectionVars false

namespace Stencil

/-! ## Machine words -/

/-- The number of values of a `std::size_t`. -/
def WORD : Nat := 2 ^ 64

/-- The `std::size_t` that represents the integer `i` (two's complement). -/
def toWord (i : Int) : Nat := (i % (2 ^ 64 : Int)).toNat

/-- Unsigned `a + b`. -/
def wadd (a b : Nat) : Nat := (a + b) % WORD

/-- Unsigned `a - b`. -/
def wsub (a b : Nat) : Nat := (a + (WORD - b % WORD)) % WORD

/-- `std::int64_t(i) < 0` for a `std::size_t` `i`. -/
def isNegative (i : Nat) : Bool := decide (2 ^ 63 ≤ i % WORD)

/-- The source's `idx`:
`(std::int64_t(i) < 0) ? (i + size) % size : i % size`.
A remainder by zero has no value. -/
def idx (i size : Nat) : Option Nat :=
  if size = 0 then none
  else if isNegative i then some (wadd i size % size)
  else some (i % size)

/-- The formula of the specification, `((i % size) + size) % size`, over the
integers, the inner `%` being the truncating remainder of C++. -/
def idx_spec (i : Int) (size : Nat) : Int :=
  (Int.tmod i size + size) % size

/-! ## Buffers under construction -/

/-- The generic loop: visit the indices in order, stop at the first failure. -/
def for_each {σ : Type} (body : σ → Nat → Option σ) : List Nat → σ → Option σ
  | [], s => some s
  | i :: rest, s => (body s i).bind (for_each body rest)

/-- An allocation of `size` cells whose contents are indeterminate
(`new double[size]`, `s.resize(np)`). -/
def alloc {α : Type} (size : Nat) : List (Option α) := List.replicate size none

/-- The assignment `buf[i] = v`; an index outside the allocation has no value. -/
def store {α : Type} (buf : List (Option α)) (i : Nat) (v : α) :
    Option (List (Option α)) :=
  if i < buf.length then some (buf.set i (some v)) else none

/-- A buffer is a value once every cell has been written. -/
def publish {α : Type} : List (Option α) → Option (List α)
  | [] => some []
  | none :: _ => none
  | some a :: rest => (publish rest).map (fun l => a :: l)

/-- The buffer after the cells listed in `order` have received the values `h`. -/
def fill {α : Type} (h : Nat → Option α) (order : List Nat) (buf : List (Option α)) :
    List (Option α) :=
  order.foldl (fun b i => b.set i (h i)) buf

/-! ## `partition_data` -/

/-- The resolved contents of a `partition_data`: `size()` is the length and
`operator[]` is the bounds-checked `l[i]?`. -/
abbrev partition_data (R : Type) : Type := List R

section ops
variable {R : Type} [Add R] [Sub R] [Mul R] [Div R] [NatCast R]

/-- The seeded constructor `partition_data(size, initial_value)`:
`base_value = initial_value * size`, then `data_[i] = base_value + double(i)`
for `i = 0 .. size - 1`. -/
def partition_data.seeded (size : Nat) (initial_value : R) :
    Option (partition_data R) :=
  let base_value : R := initial_value * (size : R)
  (for_each (fun data i => store data i (base_value + (i : R)))
    (List.range size) (alloc size)).bind publish

/-! ## The stepper -/

/-- The process-wide constants `k`, `dt`, `dx`. -/
structure Consts (R : Type) where
  /-- The heat transfer coefficient. -/
  k : R
  /-- The time step. -/
  dt : R
  /-- The grid spacing. -/
  dx : R

/-- The source's `stepper::heat`:
`middle + (k * dt / (dx * dx)) * (left - 2 * middle + right)`. -/
def stepper.heat (c : Consts R) (left middle right : R) : R :=
  middle + (c.k * c.dt / (c.dx * c.dx)) * (left - ((2 : Nat) : R) * middle + right)

/-- The right-hand side `heat(middle[i - 1], middle[i], middle[i + 1])` of the
assignment in the loop of `stepper::heat_part`. -/
def stepper.heat_at (c : Consts R) (middle : partition_data R) (i : Nat) : Option R := do
  let a ← middle[wsub i 1]?
  let b ← middle[i]?
  let d ← middle[wadd i 1]?
  pure (stepper.heat c a b d)

/-- The body of the loop of `stepper::heat_part`:
`next[i] = heat(middle[i - 1], middle[i], middle[i + 1])`. -/
def stepper.heat_part_body (c : Consts R) (middle : partition_data R)
    (next : List (Option R)) (i : Nat) : Option (List (Option R)) := do
  let v ← stepper.heat_at c middle i
  store next i v

/-- The source's `stepper::heat_part`, the interior loop visiting the indices
`order size`. -/
def stepper.heat_part_in (order : Nat → List Nat) (c : Consts R)
    (left middle right : partition_data R) : Option (partition_data R) := do
  let size := middle.length
  let next : List (Option R) := alloc size
  let l ← left[wsub size 1]?
  let m0 ← middle[0]?
  let m1 ← middle[1]?
  let next ← store next 0 (stepper.heat c l m0 m1)
  let next ← for_each (stepper.heat_part_body c middle) (order size) next
  let a ← middle[wsub size 2]?
  let b ← middle[wsub size 1]?
  let r ← right[0]?
  let next ← store next (wsub size 1) (stepper.heat c a b r)
  publish next

/-- The source's `stepper::heat_part`: the interior loop runs over
`iterator(1) .. iterator(size - 1)`. -/
def stepper.heat_part (c : Consts R)
    (left middle right : partition_data R) : Option (partition_data R) :=
  stepper.heat_part_in (fun size => List.range' 1 (wsub size 1 - 1)) c left middle right

/-- A `space`: a vector of futures, each modelled by the value it resolves to;
`none` is a default-constructed future. -/
abbrev space (R : Type) : Type := List (Option (partition_data R))

/-- The two generations `U[0]`, `U[1]`. -/
structure Buffers (R : Type) where
  /-- The space `U[0]`. -/
  U0 : space R
  /-- The space `U[1]`. -/
  U1 : space R

/-- The space `U[p]` for `p = t % 2`. -/
def Buffers.sel (U : Buffers R) (p : Nat) : space R :=
  if p = 0 then U.U0 else U.U1

/-- The buffers after `U[p]` has been replaced by `s`. -/
def Buffers.put (U : Buffers R) (p : Nat) (s : space R) : Buffers R :=
  if p = 0 then ⟨s, U.U1⟩ else ⟨U.U0, s⟩

/-- The seeding loop body of `do_work`:
`U[0][i] = make_ready_future(partition_data(nx, double(i)))`. -/
def stepper.seed_body (nx : Nat) (U0 : space R) (i : Nat) : Option (space R) := do
  let p ← partition_data.seeded nx ((i : Nat) : R)
  store U0 i p

/-- The right-hand side
`dataflow(Op, current[idx(i - 1, np)], current[i], current[idx(i + 1, np)])`
of the assignment in the inner loop of `do_work`: the three futures are read
from `current`, awaited, and handed to `heat_part`. -/
def stepper.dataflow_at (c : Consts R) (np : Nat) (current : space R) (i : Nat) :
    Option (partition_data R) := do
  let il ← idx (wsub i 1) np
  let ir ← idx (wadd i 1) np
  let fl ← current[il]?
  let fm ← current[i]?
  let fr ← current[ir]?
  let left ← fl
  let middle ← fm
  let right ← fr
  stepper.heat_part c left middle right

/-- The body of the inner loop of `do_work`: `next[i] = dataflow(...)`. -/
def stepper.step_body (c : Consts R) (np : Nat) (current : space R)
    (next : space R) (i : Nat) : Option (space R) := do
  let p ← stepper.dataflow_at c np current i
  store next i p

/-- One pass of the time step loop of `do_work`, the partitions visited in
`order`: `current = U[t % 2]`, `next = U[(t + 1) % 2]`. -/
def stepper.time_step_in (order : List Nat) (c : Consts R) (np : Nat)
    (U : Buffers R) (t : Nat) : Option (Buffers R) := do
  let current := U.sel (t % 2)
  let next ← for_each (stepper.step_body c np current) order (U.sel ((t + 1) % 2))
  pure (U.put ((t + 1) % 2) next)

/-- The source's `stepper::do_work`, returning the resolved `U[nt % 2]`. -/
def stepper.do_work (c : Consts R) (np nx nt : Nat) :
    Option (List (partition_data R)) := do
  let U : Buffers R := ⟨alloc np, alloc np⟩
  let U0 ← for_each (stepper.seed_body nx) (List.range np) U.U0
  let U := U.put 0 U0
  let U ← for_each (stepper.time_step_in (List.range np) c np) (List.range nt) U
  publish (U.sel (nt % 2))

/-- A generation has `np` partitions of `nx` elements each. -/
def Shape (np nx : Nat) (g : List (partition_data R)) : Prop :=
  g.length = np ∧ ∀ p ∈ g, p.length = nx

/-! ## The recurrence in the words of the specification -/

/-- Generation 0 as the specification states it: partition `i`, element `j`,
is `i * nx + j`. -/
def spec_seed (np nx : Nat) : List (partition_data R) :=
  (List.range np).map fun (i : Nat) =>
    (List.range nx).map fun (j : Nat) => (i : R) * (nx : R) + (j : R)

/-- Partition `i` of the next generation as the specification states it:
`heat_part(g[idx(i - 1, np)], g[i], g[idx(i + 1, np)])`. -/
def spec_partition (c : Consts R) (np : Nat) (g : List (partition_data R)) (i : Nat) :
    Option (partition_data R) := do
  let il ← idx (wsub i 1) np
  let ir ← idx (wadd i 1) np
  let left ← g[il]?
  let middle ← g[i]?
  let right ← g[ir]?
  stepper.heat_part c left middle right

/-- The pure one-generation step: every partition `i` in `[0, np)` is replaced
by `spec_partition`. -/
def spec_step (c : Consts R) (np : Nat) (g : List (partition_data R)) :
    Option (List (partition_data R)) :=
  publish ((List.range np).map (spec_partition c np g))

/-- Generation `t`: the `t`-fold iterate of `spec_step` from `spec_seed`. -/
def spec_generation (c : Consts R) (np nx : Nat) : Nat → Option (List (partition_data R))
  | 0 => some (spec_seed np nx)
  | t + 1 => (spec_generation c np nx t).bind (spec_step c np)

/-! ## Runs under an arbitrary schedule -/

/-- A schedule of the two `hpx::for_each(par, ...)` loops: the order in which
each index range is visited. -/
structure Schedule where
  /-- The order in which time step `t` visits the partition indices. -/
  outer : Nat → List Nat
  /-- The order in which, in time step `t`, the kernel of partition `i` visits
  the interior indices of a buffer of `size` elements. -/
  inner : Nat → Nat → Nat → List Nat

/-- The order in which the source writes the loops down. -/
def Schedule.sequential (np : Nat) : Schedule :=
  ⟨fun _ => List.range np, fun _ _ size => List.range' 1 (wsub size 1 - 1)⟩

/-- Every loop of the schedule visits each index of its range exactly once:
`0 .. np - 1` in the outer loop, `1 .. size - 2` in the kernel. -/
def Schedule.Fair (s : Schedule) (np : Nat) : Prop :=
  (∀ t, (s.outer t).Perm (List.range np)) ∧
  ∀ t i size, (s.inner t i size).Perm (List.range' 1 (wsub size 1 - 1))

/-- The dataflow of `stepper.dataflow_at`, its kernel visiting the interior in
the given order. -/
def stepper.dataflow_at_in (order : Nat → List Nat) (c : Consts R) (np : Nat)
    (current : space R) (i : Nat) : Option (partition_data R) := do
  let il ← idx (wsub i 1) np
  let ir ← idx (wadd i 1) np
  let fl ← current[il]?
  let fm ← current[i]?
  let fr ← current[ir]?
  let left ← fl
  let middle ← fm
  let right ← fr
  stepper.heat_part_in order c left middle right

/-- The body of the inner loop of `do_work` in time step `t` under a schedule. -/
def stepper.step_body_sched (s : Schedule) (c : Consts R) (np t : Nat) (current : space R)
    (next : space R) (i : Nat) : Option (space R) := do
  let p ← stepper.dataflow_at_in (s.inner t i) c np current i
  store next i p

/-- One pass of the time step loop of `do_work` under a schedule. -/
def stepper.time_step_sched (s : Schedule) (c : Consts R) (np : Nat)
    (U : Buffers R) (t : Nat) : Option (Buffers R) := do
  let current := U.sel (t % 2)
  let next ← for_each (stepper.step_body_sched s c np t current) (s.outer t)
    (U.sel ((t + 1) % 2))
  pure (U.put ((t + 1) % 2) next)

/-- The source's `stepper::do_work` under a schedule of its parallel loops; the
seeding loop is a sequential `for`. -/
def stepper.do_work_sched (s : Schedule) (c : Consts R) (np nx nt : Nat) :
    Option (List (partition_data R)) := do
  let U : Buffers R := ⟨alloc np, alloc np⟩
  let U0 ← for_each (stepper.seed_body nx) (List.range np) U.U0
  let U := U.put 0 U0
  let U ← for_each (stepper.time_step_sched s c np) (List.range nt) U
  publish (U.sel (nt % 2))

/-- The operator `heat` applied to three reads, each of which may fall outside
its buffer. -/
def stepper.heat_reads (c : Consts R) (a b d : Option R) : Option R := do
  let x ← a
  let y ← b
  let z ← d
  pure (stepper.heat c x y z)

/-! ## The unpartitioned stencil in the words of the specification -/

/-- Point `g` of the next generation of the unpartitioned periodic stencil:
`heat(G[(g - 1) mod N], G[g], G[(g + 1) mod N])` with `N` the number of points. -/
def global_at (c : Consts R) (G : List R) (g : Nat) : Option R := do
  let l ← G[(g + G.length - 1) % G.length]?
  let m ← G[g]?
  let r ← G[(g + 1) % G.length]?
  pure (stepper.heat c l m r)

/-- One generation of the unpartitioned periodic stencil. -/
def global_step (c : Consts R) (G : List R) : Option (List R) :=
  publish ((List.range G.length).map (global_at c G))

/-- The initial array `G0[g] = g` on `N` points. -/
def global_seed (N : Nat) : List R :=
  (List.range N).map fun (g : Nat) => (g : R)

/-- Generation `t` of the unpartitioned stencil on `N` points. -/
def global_generation (c : Consts R) (N : Nat) : Nat → Option (List R)
  | 0 => some (global_seed N)
  | t + 1 => (global_generation c N t).bind (global_step c)

end ops

/-- The defaults of the source: `k = 0.5`, `dt = 1.`, `dx = 1.`. -/
def defaults : Consts ℚ := ⟨1 / 2, 1, 1⟩

/-! ## IEEE 754 binary64 -/

/-- The rational `2 ^ e` for an integer exponent. -/
def pow2 (e : Int) : ℚ :=
  if 0 ≤ e then ((2 ^ e.toNat : Nat) : ℚ) else 1 / ((2 ^ (-e).toNat : Nat) : ℚ)

/-- The number `⌊log2 n⌋` for `n ≥ 1`, by repeated halving; `fuel` bounds the
number of halvings. -/
def log2_halving : Nat → Nat → Nat
  | 0, _ => 0
  | fuel + 1, n => if n < 2 then 0 else log2_halving fuel (n / 2) + 1

/-- The exponent `⌊log2 a⌋` of a positive rational `a`. -/
def ilog2 (a : ℚ) : Int :=
  let p : Nat := a.num.natAbs
  let k : Int := (log2_halving p p : Int) - (log2_halving a.den a.den : Int)
  if pow2 k ≤ a then k else k - 1

/-- The integer nearest to `x ≥ 0`, a tie going to the even one. -/
def roundEven (x : ℚ) : Nat :=
  let f : Nat := (x.num / x.den).toNat
  let r : ℚ := x - (f : ℚ)
  if r < 1 / 2 then f else if 1 / 2 < r then f + 1 else if f % 2 = 0 then f else f + 1

/-- The values of a `double`: a finite value, an infinity with its sign, or NaN.
The sign of a zero is not represented. -/
inductive Dbl where
  /-- A finite value. -/
  | fin (q : ℚ)
  /-- An infinity; `true` is the negative one. -/
  | inf (negative : Bool)
  /-- Not a number. -/
  | nan
  deriving DecidableEq

/-- Rounding of an exact result to binary64, to nearest with ties to even: 53
significant bits, exponents from `-1022` (gradual underflow below) to `1023`
(overflow to infinity above). -/
def Dbl.round (q : ℚ) : Dbl :=
  if q = 0 then Dbl.fin 0
  else
    let a : ℚ := if q < 0 then -q else q
    let e : Int := max (ilog2 a) (-1022)
    let quantum : ℚ := pow2 (e - 52)
    let r : ℚ := (roundEven (a / quantum) : ℚ) * quantum
    if pow2 1024 ≤ r then Dbl.inf (decide (q < 0))
    else Dbl.fin (if q < 0 then -r else r)

/-- Negation. -/
def Dbl.neg : Dbl → Dbl
  | Dbl.fin q => Dbl.fin (-q)
  | Dbl.inf s => Dbl.inf (not s)
  | Dbl.nan => Dbl.nan

/-- Addition: `∞ + (-∞)` is NaN. -/
def Dbl.add : Dbl → Dbl → Dbl
  | Dbl.nan, _ => Dbl.nan
  | _, Dbl.nan => Dbl.nan
  | Dbl.inf s, Dbl.inf t => if s = t then Dbl.inf s else Dbl.nan
  | Dbl.inf s, Dbl.fin _ => Dbl.inf s
  | Dbl.fin _, Dbl.inf t => Dbl.inf t
  | Dbl.fin a, Dbl.fin b => Dbl.round (a + b)

/-- Subtraction. -/
def Dbl.sub (a b : Dbl) : Dbl := Dbl.add a (Dbl.neg b)

/-- Multiplication: `0 * ∞` is NaN. -/
def Dbl.mul : Dbl → Dbl → Dbl
  | Dbl.nan, _ => Dbl.nan
  | _, Dbl.nan => Dbl.nan
  | Dbl.inf s, Dbl.inf t => Dbl.inf (xor s t)
  | Dbl.inf s, Dbl.fin b => if b = 0 then Dbl.nan else Dbl.inf (xor s (decide (b < 0)))
  | Dbl.fin a, Dbl.inf t => if a = 0 then Dbl.nan else Dbl.inf (xor (decide (a < 0)) t)
  | Dbl.fin a, Dbl.fin b => Dbl.round (a * b)

/-- Division: `0 / 0` and `∞ / ∞` are NaN, `x / 0` is an infinity. -/
def Dbl.div : Dbl → Dbl → Dbl
  | Dbl.nan, _ => Dbl.nan
  | _, Dbl.nan => Dbl.nan
  | Dbl.inf _, Dbl.inf _ => Dbl.nan
  | Dbl.inf s, Dbl.fin b => Dbl.inf (xor s (decide (b < 0)))
  | Dbl.fin _, Dbl.inf _ => Dbl.fin 0
  | Dbl.fin a, Dbl.fin b =>
    if b = 0 then (if a = 0 then Dbl.nan else Dbl.inf (decide (a < 0)))
    else Dbl.round (a / b)

instance : Add Dbl := ⟨Dbl.add⟩

instance : Sub Dbl := ⟨Dbl.sub⟩

instance : Mul Dbl := ⟨Dbl.mul⟩

instance : Div Dbl := ⟨Dbl.div⟩

instance : NatCast Dbl := ⟨fun n => Dbl.round (n : ℚ)⟩


theorem toWord_ofNat (n : Nat) (h : n < 2 ^ 64) : toWord (n : Int) = n := by
  unfold toWord; omega

theorem toWord_neg (m : Nat) (h1 : 1 ≤ m) (h : m ≤ 2 ^ 64) :
    toWord (-(m : Int)) = 2 ^ 64 - m := by
  unfold toWord; omega

theorem idx_spec_emod (i : Int) (size : Nat) (h1 : 1 ≤ size) (hlo : -(size : Int) ≤ i) :
    idx_spec i size = i % size := by
  unfold idx_spec
  have hs : (0 : Int) < size := by exact_mod_cast h1
  rcases lt_or_le i 0 with hneg | hpos
  · rcases eq_or_lt_of_le hlo with heq | hlt
    · subst heq
      simp
    · have hd : Int.tdiv (-i) size = 0 := Int.tdiv_eq_zero_of_lt (by omega) (by omega)
      have : Int.tmod i size = i := by
        rw [Int.tmod_def, ← neg_neg i, Int.neg_tdiv, hd]; simp
      rw [this, Int.add_emod_self]
  · rw [Int.tmod_eq_emod hpos (by omega), Int.add_emod_self, Int.emod_emod]

theorem idx_of_nonneg (i size : Nat) (h1 : 1 ≤ size) (h : i < 2 ^ 63) :
    idx i size = some (i % size) := by
  have : isNegative i = false := by
    unfold isNegative WORD; simp; omega
  simp [idx, this]; omega

theorem idx_of_neg (i size : Nat) (h1 : 1 ≤ size) (h : 2 ^ 63 ≤ i) (h2 : i < 2 ^ 64) :
    idx i size = some ((i + size) % 2 ^ 64 % size) := by
  have : isNegative i = true := by
    unfold isNegative WORD; simp; omega
  simp [idx, this, wadd, WORD]; omega

/-- C3, as the code behaves: for `1 ≤ size`, `3 * size ≤ 2 ^ 64` and every
integer `i` with `-size ≤ i < 2 * size`, passed as its 64-bit two's-complement
representation, `idx(i, size)` equals `((i % size) + size) % size`, the
mathematical remainder of `i` modulo `size`. -/
theorem idx_wraparound (size : Nat) (i : Int) (h1 : 1 ≤ size)
    (h3 : 3 * size ≤ 2 ^ 64) (hlo : -(size : Int) ≤ i) (hhi : i < 2 * size) :
    idx (toWord i) size = some (idx_spec i size).toNat ∧ idx_spec i size = i % size := by
  refine ⟨?_, idx_spec_emod i size h1 hlo⟩
  rw [idx_spec_emod i size h1 hlo]
  rcases lt_or_le i 0 with hneg | hpos
  · obtain ⟨m, rfl⟩ : ∃ m : Nat, i = -(m : Int) := ⟨(-i).toNat, by omega⟩
    have hm1 : 1 ≤ m := by omega
    have hm2 : m ≤ size := by omega
    rw [toWord_neg m hm1 (by omega), idx_of_neg _ _ h1 (by omega) (by omega)]
    have e1 : (2 ^ 64 - m + size) % 2 ^ 64 = size - m := by omega
    rw [e1]
    congr 1
    have e2 : (-(m : Int)) % (size : Int) = ((size - m : Nat) : Int) % (size : Int) := by
      rw [Nat.cast_sub hm2, show (size : Int) - (m : Int) = -(m : Int) + size by ring,
        Int.add_emod_self]
    rw [e2, ← Int.natCast_mod, Int.toNat_natCast]
  · obtain ⟨n, rfl⟩ : ∃ n : Nat, i = (n : Int) := ⟨i.toNat, by omega⟩
    have hn : n < 2 * size := by omega
    rw [toWord_ofNat n (by omega), ← Int.natCast_mod, Int.toNat_natCast]
    rcases lt_or_le n (2 ^ 63) with hlt | hge
    · exact idx_of_nonneg n size h1 hlt
    · rw [idx_of_neg n size h1 hge (by omega)]
      have e1 : (n + size) % 2 ^ 64 = n + size := by omega
      rw [e1, Nat.add_mod_right]

/-- C3 fails on the code below `-size` and for sizes near `2 ^ 63`:
`idx(-4, 3) = 0` where the formula gives `2`, and `idx(2^63, 2^63 + 1) = 1`
where the formula gives `2^63`. -/
theorem idx_wraparound_counterexample :
    (idx (toWord (-4)) 3 = some 0 ∧ idx_spec (-4) 3 = 2) ∧
    (idx (toWord (2 ^ 63)) (2 ^ 63 + 1) = some 1 ∧ idx_spec (2 ^ 63) (2 ^ 63 + 1) = 2 ^ 63) := by
  decide

/-- C3 as amended at `size = 4`, `i = -1`. -/
theorem idx_wraparound_witness :
    idx (toWord (-1)) 4 = some (idx_spec (-1) 4).toNat ∧ idx_spec (-1) 4 = (-1) % ((4 : Nat) : Int) :=
  idx_wraparound 4 (-1) (by decide) (by decide) (by decide) (by decide)

theorem wsub_one (i : Nat) (h : i < 2 ^ 64) :
    wsub i 1 = if i = 0 then 2 ^ 64 - 1 else i - 1 := by
  unfold wsub WORD
  split <;> omega

theorem wadd_one (i : Nat) (h : i + 1 < 2 ^ 64) : wadd i 1 = i + 1 := by
  unfold wadd WORD; omega

/-- C4: for `1 ≤ np < 2 ^ 63` and `i < np`, with `i - 1` and `i + 1` computed in
unsigned 64-bit arithmetic, `idx(i-1, np) = (i + np - 1) mod np` and
`idx(i+1, np) = (i + 1) mod np`; in particular `0 - 1` is `2^64 - 1`,
`idx(0-1, np) = np - 1` and `idx(np, np) = 0`. -/
theorem idx_neighbours (np i : Nat) (h1 : 1 ≤ np) (h2 : np < 2 ^ 63) (hi : i < np) :
    idx (wsub i 1) np = some ((i + np - 1) % np) ∧
    idx (wadd i 1) np = some ((i + 1) % np) ∧
    (wsub 0 1 = 2 ^ 64 - 1 ∧ idx (wsub 0 1) np = some (np - 1)) ∧
    idx np np = some 0 := by
  have hz : idx (wsub 0 1) np = some (np - 1) := by
    rw [wsub_one 0 (by omega), if_pos rfl, idx_of_neg _ _ h1 (by omega) (by omega)]
    have e : (2 ^ 64 - 1 + np) % 2 ^ 64 = np - 1 := by omega
    rw [e, Nat.mod_eq_of_lt (by omega)]
  refine ⟨?_, ?_, ⟨by rw [wsub_one 0 (by omega), if_pos rfl], hz⟩, ?_⟩
  · rcases Nat.eq_zero_or_pos i with h0 | hpos
    · subst h0
      rw [hz, Nat.zero_add, Nat.mod_eq_of_lt (by omega)]
    · rw [wsub_one i (by omega), if_neg (by omega), idx_of_nonneg _ _ h1 (by omega)]
      have e : i + np - 1 = i - 1 + np := by omega
      rw [e, Nat.add_mod_right]
  · rw [wadd_one i (by omega), idx_of_nonneg _ _ h1 (by omega)]
  · rw [idx_of_nonneg _ _ h1 h2, Nat.mod_self]

/-- C4 at `np = 4`, `i = 0`. -/
theorem idx_neighbours_witness :
    idx (wsub 0 1) 4 = some ((0 + 4 - 1) % 4) ∧
    idx (wadd 0 1) 4 = some ((0 + 1) % 4) ∧
    (wsub 0 1 = 2 ^ 64 - 1 ∧ idx (wsub 0 1) 4 = some (4 - 1)) ∧
    idx 4 4 = some 0 :=
  idx_neighbours 4 0 (by decide) (by decide) (by decide)


/-! ## Loops that fill a buffer -/

theorem for_each_append {σ : Type} (body : σ → Nat → Option σ) (l₁ l₂ : List Nat) (s : σ) :
    for_each body (l₁ ++ l₂) s = (for_each body l₁ s).bind (for_each body l₂) := by
  induction l₁ generalizing s with
  | nil => rfl
  | cons i rest ih =>
    simp only [List.cons_append, for_each]
    cases body s i with
    | none => rfl
    | some s1 => simpa using ih s1

theorem for_each_range_succ {σ : Type} (body : σ → Nat → Option σ) (n : Nat) (s : σ) :
    for_each body (List.range (n + 1)) s
      = (for_each body (List.range n) s).bind (fun s1 => body s1 n) := by
  rw [List.range_succ, for_each_append]
  congr 1
  funext s1
  simp only [for_each]
  cases body s1 n <;> rfl

theorem fill_length {α : Type} (h : Nat → Option α) (order : List Nat)
    (buf : List (Option α)) : (fill h order buf).length = buf.length := by
  induction order generalizing buf with
  | nil => rfl
  | cons i rest ih => simp [fill, List.foldl] at ih ⊢; rw [ih]; simp

theorem fill_getElem? {α : Type} (h : Nat → Option α) (order : List Nat)
    (buf : List (Option α)) (j : Nat) :
    (fill h order buf)[j]? =
      if j ∈ order ∧ j < buf.length then some (h j) else buf[j]? := by
  induction order generalizing buf with
  | nil => simp [fill]
  | cons i rest ih =>
    have := ih (buf.set i (h i))
    simp only [fill, List.foldl_cons] at this ⊢
    rw [this]
    simp only [List.length_set, List.mem_cons]
    by_cases hj : j ∈ rest ∧ j < buf.length
    · rw [if_pos hj, if_pos ⟨Or.inr hj.1, hj.2⟩]
    · rw [if_neg hj, List.getElem?_set]
      by_cases hij : i = j
      · subst hij
        by_cases hlt : i < buf.length
        · simp [hlt]
        · simp [hlt]
          exact Nat.le_of_not_lt hlt
      · have hji : ¬ j = i := fun e => hij e.symm
        simp [hij, hji, hj]

theorem for_each_store {α : Type} (h : Nat → Option α) (order : List Nat)
    (buf : List (Option α)) (hsome : ∀ i ∈ order, (h i).isSome = true)
    (hlen : ∀ i ∈ order, i < buf.length) :
    for_each (fun b i => (h i).bind (store b i)) order buf = some (fill h order buf) := by
  induction order generalizing buf with
  | nil => rfl
  | cons i rest ih =>
    have hi := hsome i (List.mem_cons_self _ _)
    obtain ⟨v, hv⟩ := Option.isSome_iff_exists.mp hi
    have hl := hlen i (List.mem_cons_self _ _)
    simp only [for_each, hv, Option.some_bind, store, hl, if_true, fill, List.foldl_cons]
    have := ih (buf.set i (some v)) (fun k hk => hsome k (List.mem_cons_of_mem _ hk))
      (fun k hk => by simpa using hlen k (List.mem_cons_of_mem _ hk))
    simpa [fill] using this

theorem for_each_store_none {α : Type} (h : Nat → Option α) (i : Nat) (rest : List Nat)
    (buf : List (Option α)) (hnone : h i = none) :
    for_each (fun b i => (h i).bind (store b i)) (i :: rest) buf = none := by
  simp [for_each, hnone]

theorem fill_range {α : Type} (h : Nat → Option α) (n : Nat) (buf : List (Option α))
    (hlen : buf.length = n) : fill h (List.range n) buf = (List.range n).map h := by
  apply List.ext_getElem?
  intro j
  rw [fill_getElem?]
  by_cases hj : j < n
  · simp [hj, hlen, List.getElem?_range hj]
  · have h1 : buf[j]? = none := List.getElem?_eq_none (by omega)
    have h2 : ((List.range n).map h)[j]? = none :=
      List.getElem?_eq_none (by simp; omega)
    simp [hj, h1, h2]

theorem publish_map_some {α : Type} (l : List α) : publish (l.map some) = some l := by
  induction l with
  | nil => rfl
  | cons a rest ih => simp [publish, ih]

theorem publish_eq_some {α : Type} (buf : List (Option α)) (l : List α)
    (h : publish buf = some l) : buf = l.map some := by
  induction buf generalizing l with
  | nil => simp [publish] at h; subst h; rfl
  | cons x rest ih =>
    cases x with
    | none => simp [publish] at h
    | some a =>
      simp only [publish, Option.map_eq_some'] at h
      obtain ⟨l1, h1, rfl⟩ := h
      simp [ih l1 h1]

theorem publish_of_all_some {α : Type} (buf : List (Option α))
    (h : ∀ j, j < buf.length → ∃ v, buf[j]? = some (some v)) :
    ∃ l, publish buf = some l ∧ buf = l.map some := by
  induction buf with
  | nil => exact ⟨[], rfl, rfl⟩
  | cons x rest ih =>
    obtain ⟨v, hv⟩ := h 0 (by simp)
    simp at hv
    subst hv
    obtain ⟨l, hl, hm⟩ := ih (fun j hj => by simpa using h (j + 1) (by simpa using hj))
    exact ⟨v :: l, by simp [publish, hl], by simp [hm]⟩

theorem publish_eq_none {α : Type} (buf : List (Option α)) (j : Nat)
    (h : buf[j]? = some none) : publish buf = none := by
  induction buf generalizing j with
  | nil => simp at h
  | cons x rest ih =>
    cases j with
    | zero => simp at h; subst h; rfl
    | succ k =>
      cases x with
      | none => rfl
      | some a => simp at h; simp [publish, ih k h]


/-! ## The partition kernel -/

section kernel
variable {R : Type} [Add R] [Sub R] [Mul R] [Div R] [NatCast R]

theorem wsub_of_le (a b : Nat) (hb : b ≤ a) (ha : a < 2 ^ 64) : wsub a b = a - b := by
  unfold wsub WORD
  have : b % 2 ^ 64 = b := Nat.mod_eq_of_lt (by omega)
  rw [this]
  omega

theorem heat_at_interior (c : Consts R) (middle : partition_data R) (i : Nat)
    (h1 : 1 ≤ i) (h2 : i + 1 < middle.length) (h3 : middle.length < 2 ^ 64) :
    stepper.heat_at c middle i
      = some (stepper.heat c (middle[i - 1]) (middle[i]) (middle[i + 1])) := by
  unfold stepper.heat_at
  rw [wsub_of_le i 1 h1 (by omega), wadd_one i (by omega)]
  rw [List.getElem?_eq_getElem (show i - 1 < middle.length by omega),
    List.getElem?_eq_getElem (show i < middle.length by omega),
    List.getElem?_eq_getElem h2]
  rfl

theorem heat_part_eq (c : Consts R) (nx : Nat) (left middle right : partition_data R)
    (hnx : 2 ≤ nx) (hw : nx < 2 ^ 64)
    (hl : left.length = nx) (hm : middle.length = nx) (hr : right.length = nx) :
    stepper.heat_part c left middle right
      = publish ((fill (stepper.heat_at c middle) (List.range' 1 (nx - 2))
          ((alloc nx).set 0 (some (stepper.heat c (left[nx - 1]) (middle[0]) (middle[1]))))).set
          (nx - 1) (some (stepper.heat c (middle[nx - 2]) (middle[nx - 1]) (right[0])))) := by
  unfold stepper.heat_part stepper.heat_part_in
  simp only [hm]
  rw [wsub_of_le nx 1 (by omega) hw, wsub_of_le nx 2 hnx hw]
  rw [List.getElem?_eq_getElem (show nx - 1 < left.length by omega),
    List.getElem?_eq_getElem (show 0 < middle.length by omega),
    List.getElem?_eq_getElem (show 1 < middle.length by omega),
    List.getElem?_eq_getElem (show nx - 2 < middle.length by omega),
    List.getElem?_eq_getElem (show nx - 1 < middle.length by omega),
    List.getElem?_eq_getElem (show 0 < right.length by omega)]
  have hs0 : ∀ v : R, store (alloc nx) 0 v = some ((alloc nx).set 0 (some v)) := by
    intro v
    simp [store, alloc]; omega
  have hloop : ∀ buf : List (Option R), buf.length = nx →
      for_each (stepper.heat_part_body c middle) (List.range' 1 (nx - 1 - 1)) buf
        = some (fill (stepper.heat_at c middle) (List.range' 1 (nx - 2)) buf) := by
    intro buf hb
    have e : nx - 1 - 1 = nx - 2 := by omega
    rw [e]
    refine for_each_store (stepper.heat_at c middle) _ buf ?_ ?_
    · intro i hi
      rw [List.mem_range'_1] at hi
      rw [heat_at_interior c middle i hi.1 (by omega) (by omega)]
      rfl
    · intro i hi
      rw [List.mem_range'_1] at hi
      omega
  simp only [Option.bind_eq_bind, Option.some_bind, hs0, bind, Option.bind]
  rw [hloop _ (by simp [alloc])]
  simp only [store, fill_length, List.length_set, alloc, List.length_replicate]
  rw [if_pos (by omega)]

theorem map_some_getElem? {α : Type} (l : List α) (buf : List (Option α)) (j : Nat) (v : α)
    (hb : buf = l.map some) (hj : buf[j]? = some (some v)) : l[j]? = some v := by
  subst hb
  rw [List.getElem?_map] at hj
  cases h : l[j]? with
  | none => rw [h] at hj; simp at hj
  | some a => rw [h] at hj; simp at hj; rw [hj]

theorem kernel_cells {α : Type} (h : Nat → Option α) (nx : Nat) (v0 vl : α) (hnx : 2 ≤ nx) :
    ((fill h (List.range' 1 (nx - 2)) ((alloc nx).set 0 (some v0))).set
        (nx - 1) (some vl)).length = nx ∧
    ((fill h (List.range' 1 (nx - 2)) ((alloc nx).set 0 (some v0))).set
        (nx - 1) (some vl))[0]? = some (some v0) ∧
    ((fill h (List.range' 1 (nx - 2)) ((alloc nx).set 0 (some v0))).set
        (nx - 1) (some vl))[nx - 1]? = some (some vl) ∧
    ∀ j, 1 ≤ j → j ≤ nx - 2 →
      ((fill h (List.range' 1 (nx - 2)) ((alloc nx).set 0 (some v0))).set
        (nx - 1) (some vl))[j]? = some (h j) := by
  refine ⟨by simp [fill_length, alloc], ?_, ?_, ?_⟩
  · rw [List.getElem?_set_ne (by omega), fill_getElem?, if_neg (by simp),
      List.getElem?_set_self (by simp [alloc]; omega)]
  · rw [List.getElem?_set_self (by simp [fill_length, alloc]; omega)]
  · intro j h1 h2
    rw [List.getElem?_set_ne (by omega), fill_getElem?,
      if_pos ⟨by rw [List.mem_range'_1]; omega, by simp [alloc]; omega⟩]

theorem heat_part_cells (c : Consts R) (nx : Nat) (left middle right : partition_data R)
    (hnx : 2 ≤ nx) (hw : nx < 2 ^ 64)
    (hl : left.length = nx) (hm : middle.length = nx) (hr : right.length = nx) :
    ∃ next, stepper.heat_part c left middle right = some next ∧ next.length = nx ∧
      next[0]? = some (stepper.heat c (left[nx - 1]) (middle[0]) (middle[1])) ∧
      next[nx - 1]? = some (stepper.heat c (middle[nx - 2]) (middle[nx - 1]) (right[0])) ∧
      ∀ j, 1 ≤ j → j ≤ nx - 2 → next[j]? = stepper.heat_at c middle j := by
  rw [heat_part_eq c nx left middle right hnx hw hl hm hr]
  obtain ⟨hlen, hfirst, hlast, hmid⟩ := kernel_cells (stepper.heat_at c middle) nx
    (stepper.heat c (left[nx - 1]) (middle[0]) (middle[1]))
    (stepper.heat c (middle[nx - 2]) (middle[nx - 1]) (right[0])) hnx
  generalize (fill (stepper.heat_at c middle) (List.range' 1 (nx - 2))
      ((alloc nx).set 0 (some (stepper.heat c (left[nx - 1]) (middle[0]) (middle[1]))))).set
      (nx - 1) (some (stepper.heat c (middle[nx - 2]) (middle[nx - 1]) (right[0]))) = B
    at hlen hfirst hlast hmid ⊢
  have hval : ∀ j (h1 : 1 ≤ j) (h2 : j ≤ nx - 2), ∃ v, stepper.heat_at c middle j = some v :=
    fun j h1 h2 => ⟨_, heat_at_interior c middle j h1 (by omega) (by omega)⟩
  obtain ⟨next, hpub, hmap⟩ := publish_of_all_some B (by
    intro j hj
    rcases Nat.eq_zero_or_pos j with h0 | hpos
    · subst h0; exact ⟨_, hfirst⟩
    · rcases Nat.lt_or_ge j (nx - 1) with hlt | hge
      · obtain ⟨v, hv⟩ := hval j hpos (by omega)
        exact ⟨v, by rw [hmid j hpos (by omega), hv]⟩
      · have : j = nx - 1 := by omega
        subst this; exact ⟨_, hlast⟩)
  refine ⟨next, hpub, ?_, map_some_getElem? next B 0 _ hmap hfirst,
    map_some_getElem? next B (nx - 1) _ hmap hlast, fun j h1 h2 => ?_⟩
  · have := congrArg List.length hmap
    simp at this
    omega
  · obtain ⟨v, hv⟩ := hval j h1 h2
    rw [hv]
    exact map_some_getElem? next B j v hmap (by rw [hmid j h1 h2, hv])

/-- C2: for buffers of length `nx ≥ 2`, `heat_part` returns a buffer of length
`nx` whose element `0` is `heat(left[nx-1], middle[0], middle[1])`, whose
element `nx-1` is `heat(middle[nx-2], middle[nx-1], right[0])` and whose element
`j`, `1 ≤ j ≤ nx-2`, is `heat(middle[j-1], middle[j], middle[j+1])`, with
`heat(l, m, r) = m + (k*dt/(dx*dx)) * (l - 2*m + r)`. -/
theorem heat_part_elements (c : Consts R) (nx : Nat) (left middle right : partition_data R)
    (hnx : 2 ≤ nx) (hw : nx < 2 ^ 64)
    (hl : left.length = nx) (hm : middle.length = nx) (hr : right.length = nx) :
    (∃ next, stepper.heat_part c left middle right = some next ∧ next.length = nx ∧
      next[0]? = some (stepper.heat c (left[nx - 1]) (middle[0]) (middle[1])) ∧
      next[nx - 1]? = some (stepper.heat c (middle[nx - 2]) (middle[nx - 1]) (right[0])) ∧
      ∀ j (h1 : 1 ≤ j) (h2 : j ≤ nx - 2),
        next[j]? = some (stepper.heat c (middle[j - 1]) (middle[j]) (middle[j + 1]))) ∧
    ∀ l m r : R, stepper.heat c l m r
      = m + (c.k * c.dt / (c.dx * c.dx)) * (l - ((2 : Nat) : R) * m + r) := by
  refine ⟨?_, fun _ _ _ => rfl⟩
  obtain ⟨next, hp, hlen, h0, hlast, hmid⟩ :=
    heat_part_cells c nx left middle right hnx hw hl hm hr
  refine ⟨next, hp, hlen, h0, hlast, fun j h1 h2 => ?_⟩
  rw [hmid j h1 h2]
  exact heat_at_interior c middle j h1 (by omega) (by omega)

/-- C2 at the buffers `[9,10,11]`, `[0,1,2]`, `[3,4,5]` of length `3`. -/
theorem heat_part_elements_witness :
    ∃ next, stepper.heat_part defaults [9, 10, 11] [0, 1, 2] [3, 4, 5] = some next ∧
      next.length = 3 ∧
      next[0]? = some (stepper.heat defaults 11 0 1) ∧
      next[2]? = some (stepper.heat defaults 1 2 3) ∧
      next[1]? = some (stepper.heat defaults 0 1 2) := by
  obtain ⟨⟨next, h, hl, h0, hlast, hmid⟩, _⟩ :=
    heat_part_elements defaults 3 [9, 10, 11] [0, 1, 2] [3, 4, 5]
      (by decide) (by decide) rfl rfl rfl
  exact ⟨next, h, hl, h0, hlast, hmid 1 (by decide) (by decide)⟩

/-! ## Seeding -/

theorem seeded_eq (size : Nat) (v : R) :
    partition_data.seeded size v
      = some ((List.range size).map fun (j : Nat) => v * (size : R) + (j : R)) := by
  unfold partition_data.seeded
  have h := for_each_store (fun (i : Nat) => some (v * (size : R) + (i : R))) (List.range size)
    (alloc size) (fun _ _ => rfl) (fun i hi => by
      rw [List.mem_range] at hi
      simpa [alloc] using hi)
  have e : (fun (data : List (Option R)) (i : Nat) => store data i (v * (size : R) + (i : R)))
      = fun b (i : Nat) => (some (v * (size : R) + (i : R))).bind (store b i) := rfl
  simp only [e, h, Option.some_bind]
  rw [fill_range _ size (alloc size) (by simp [alloc])]
  rw [← publish_map_some ((List.range size).map fun (j : Nat) => v * (size : R) + (j : R))]
  simp [List.map_map, Function.comp_def]

theorem seed_loop_eq (np nx : Nat) :
    for_each (stepper.seed_body (R := R) nx) (List.range np) (alloc np)
      = some ((spec_seed np nx).map some) := by
  have e : stepper.seed_body (R := R) nx
      = fun b i => (partition_data.seeded nx ((i : Nat) : R)).bind (store b i) := rfl
  rw [e, for_each_store _ _ _ (fun i _ => by rw [seeded_eq]; rfl) (fun i hi => by
      rw [List.mem_range] at hi
      simpa [alloc] using hi)]
  rw [fill_range _ np (alloc np) (by simp [alloc])]
  simp [spec_seed, List.map_map, Function.comp_def, seeded_eq]

/-! ## One generation -/

theorem idx_lt (i size r : Nat) (h : idx i size = some r) : r < size := by
  unfold idx at h
  split at h
  · simp at h
  · rename_i hs
    have hpos : 0 < size := Nat.pos_of_ne_zero hs
    split at h <;> (simp at h; subst h; exact Nat.mod_lt _ hpos)

theorem idx_isSome (i size : Nat) (h : 1 ≤ size) : ∃ r, idx i size = some r ∧ r < size := by
  have hs : size ≠ 0 := by omega
  unfold idx
  rw [if_neg hs]
  split
  · exact ⟨_, rfl, Nat.mod_lt _ (by omega)⟩
  · exact ⟨_, rfl, Nat.mod_lt _ (by omega)⟩

theorem dataflow_at_map_some (c : Consts R) (np : Nat) (g : List (partition_data R)) (i : Nat) :
    stepper.dataflow_at c np (g.map some) i = spec_partition c np g i := by
  unfold stepper.dataflow_at spec_partition
  cases idx (wsub i 1) np with
  | none => rfl
  | some il =>
    cases idx (wadd i 1) np with
    | none => rfl
    | some ir =>
      simp only [Option.bind_eq_bind, Option.some_bind, List.getElem?_map]
      cases g[il]? <;> cases g[i]? <;> cases g[ir]? <;> rfl

theorem spec_seed_shape (np nx : Nat) : Shape np nx (spec_seed (R := R) np nx) := by
  refine ⟨by simp [spec_seed], ?_⟩
  intro p hp
  simp only [spec_seed, List.mem_map] at hp
  obtain ⟨i, _, rfl⟩ := hp
  simp

theorem spec_partition_some (c : Consts R) (np nx : Nat) (g : List (partition_data R))
    (hg : Shape np nx g) (hnp : 1 ≤ np) (hnx : 2 ≤ nx) (hw : nx < 2 ^ 64)
    (i : Nat) (hi : i < np) :
    ∃ p, spec_partition c np g i = some p ∧ p.length = nx := by
  obtain ⟨il, hil, hil2⟩ := idx_isSome (wsub i 1) np hnp
  obtain ⟨ir, hir, hir2⟩ := idx_isSome (wadd i 1) np hnp
  have hlen := hg.1
  have e1 : g[il]? = some g[il] := List.getElem?_eq_getElem (by omega)
  have e2 : g[i]? = some g[i] := List.getElem?_eq_getElem (by omega)
  have e3 : g[ir]? = some g[ir] := List.getElem?_eq_getElem (by omega)
  obtain ⟨p, hp, hpl, _⟩ := heat_part_cells c nx g[il] g[i] g[ir] hnx hw
    (hg.2 _ (List.getElem_mem _)) (hg.2 _ (List.getElem_mem _)) (hg.2 _ (List.getElem_mem _))
  refine ⟨p, ?_, hpl⟩
  unfold spec_partition
  simp only [hil, hir, e1, e2, e3, Option.bind_eq_bind, Option.some_bind, bind, Option.bind]
  exact hp

theorem spec_step_some (c : Consts R) (np nx : Nat) (g : List (partition_data R))
    (hg : Shape np nx g) (hnp : 1 ≤ np) (hnx : 2 ≤ nx) (hw : nx < 2 ^ 64) :
    ∃ g1, spec_step c np g = some g1 ∧ Shape np nx g1 := by
  obtain ⟨g1, hpub, hmap⟩ := publish_of_all_some
    ((List.range np).map (spec_partition c np g)) (by
      intro j hj
      simp only [List.length_map, List.length_range] at hj
      obtain ⟨p, hp, _⟩ := spec_partition_some c np nx g hg hnp hnx hw j hj
      exact ⟨p, by simp [List.getElem?_range hj, hp]⟩)
  refine ⟨g1, hpub, ?_, ?_⟩
  · have := congrArg List.length hmap
    simpa using this.symm
  · intro p hp
    obtain ⟨j, hj, hjp⟩ := List.getElem_of_mem hp
    have hlen : g1.length = np := by
      have := congrArg List.length hmap
      simpa using this.symm
    have hcell : ((List.range np).map (spec_partition c np g))[j]? = some (some p) := by
      rw [hmap, List.getElem?_map, List.getElem?_eq_getElem hj, hjp]; rfl
    obtain ⟨q, hq, hql⟩ := spec_partition_some c np nx g hg hnp hnx hw j (by omega)
    rw [List.getElem?_map, List.getElem?_range (by omega)] at hcell
    simp only [Option.map_some', hq, Option.some.injEq] at hcell
    rw [← hcell]; exact hql

theorem spec_generation_some (c : Consts R) (np nx nt : Nat)
    (hnp : 1 ≤ np) (hnx : 2 ≤ nx) (hw : nx < 2 ^ 64) :
    ∃ g, spec_generation c np nx nt = some g ∧ Shape np nx g := by
  induction nt with
  | zero => exact ⟨_, rfl, spec_seed_shape np nx⟩
  | succ t ih =>
    obtain ⟨g, hg, hs⟩ := ih
    obtain ⟨g1, hg1, hs1⟩ := spec_step_some c np nx g hs hnp hnx hw
    exact ⟨g1, by simp [spec_generation, hg, hg1], hs1⟩

/-! ## The double-buffered loop -/

theorem sel_put_same (U : Buffers R) (p : Nat) (s : space R) : (U.put p s).sel p = s := by
  unfold Buffers.put Buffers.sel
  by_cases h : p = 0 <;> simp [h]

theorem sel_put_succ (U : Buffers R) (t : Nat) (s : space R) :
    (U.put ((t + 1) % 2) s).sel ((t + 1 + 1) % 2) = U.sel (t % 2) := by
  unfold Buffers.put Buffers.sel
  rcases Nat.mod_two_eq_zero_or_one t with h | h
  · have h1 : (t + 1) % 2 = 1 := by omega
    have h2 : (t + 1 + 1) % 2 = 0 := by omega
    simp [h, h1, h2]
  · have h1 : (t + 1) % 2 = 0 := by omega
    have h2 : (t + 1 + 1) % 2 = 1 := by omega
    simp [h, h1, h2]

theorem map_range_eq_map_some {α : Type} (f : Nat → Option α) (n : Nat) (l : List α)
    (h : (List.range n).map f = l.map some) :
    l.length = n ∧ ∀ i, i < n → ∃ v, f i = some v ∧ l[i]? = some v := by
  have hlen : l.length = n := by
    have := congrArg List.length h
    simpa using this.symm
  refine ⟨hlen, fun i hi => ?_⟩
  have hcell := congrArg (fun x => x[i]?) h
  simp only [List.getElem?_map, List.getElem?_range hi,
    List.getElem?_eq_getElem (show i < l.length by omega), Option.map_some'] at hcell
  exact ⟨l[i], Option.some.inj hcell, List.getElem?_eq_getElem _⟩

theorem time_step_eq (c : Consts R) (np : Nat) (U : Buffers R) (t : Nat)
    (g g1 : List (partition_data R)) (hcur : U.sel (t % 2) = g.map some)
    (hnext : (U.sel ((t + 1) % 2)).length = np) (hstep : spec_step c np g = some g1) :
    stepper.time_step_in (List.range np) c np U t
      = some (U.put ((t + 1) % 2) (g1.map some)) := by
  have hmap := publish_eq_some _ _ hstep
  obtain ⟨_, hcells⟩ := map_range_eq_map_some _ _ _ hmap
  unfold stepper.time_step_in
  have e : stepper.step_body c np (U.sel (t % 2))
      = fun b i => (stepper.dataflow_at c np (g.map some) i).bind (store b i) := by
    rw [hcur]; rfl
  have hd : stepper.dataflow_at c np (g.map some) = spec_partition c np g := by
    funext i; exact dataflow_at_map_some c np g i
  have hloop := for_each_store (stepper.dataflow_at c np (g.map some)) (List.range np)
    (U.sel ((t + 1) % 2)) (fun i hi => by
      rw [List.mem_range] at hi
      obtain ⟨v, hv, _⟩ := hcells i hi
      rw [hd, hv]; rfl) (fun i hi => by
      rw [List.mem_range] at hi
      omega)
  show (for_each (stepper.step_body c np (U.sel (t % 2))) (List.range np)
      (U.sel ((t + 1) % 2))).bind (fun next => some (U.put ((t + 1) % 2) next)) = _
  rw [e, hloop, fill_range _ np _ hnext, hd, hmap]
  rfl

theorem time_loop_eq (c : Consts R) (np nx nt : Nat)
    (hnp : 1 ≤ np) (hnx : 2 ≤ nx) (hw : nx < 2 ^ 64) :
    ∃ (U : Buffers R) (g : List (partition_data R)),
      for_each (stepper.time_step_in (List.range np) c np) (List.range nt)
        ((⟨alloc np, alloc np⟩ : Buffers R).put 0 ((spec_seed np nx).map some)) = some U ∧
      spec_generation c np nx nt = some g ∧ Shape np nx g ∧
      U.sel (nt % 2) = g.map some ∧ (U.sel ((nt + 1) % 2)).length = np := by
  induction nt with
  | zero =>
    refine ⟨_, _, rfl, rfl, spec_seed_shape np nx, ?_, ?_⟩
    · simp [Buffers.put, Buffers.sel]
    · simp [Buffers.put, Buffers.sel, alloc]
  | succ t ih =>
    obtain ⟨U, g, hU, hg, hs, hcur, hnext⟩ := ih
    obtain ⟨g1, hg1, hs1⟩ := spec_step_some c np nx g hs hnp hnx hw
    refine ⟨U.put ((t + 1) % 2) (g1.map some), g1, ?_, ?_, hs1, ?_, ?_⟩
    · rw [for_each_range_succ, hU]
      exact time_step_eq c np U t g g1 hcur hnext hg1
    · simp [spec_generation, hg, hg1]
    · exact sel_put_same U _ _
    · rw [sel_put_succ, hcur, List.length_map]
      exact hs.1

theorem do_work_eq_generation (c : Consts R) (np nx nt : Nat)
    (hnp : 1 ≤ np) (hnx : 2 ≤ nx) (hw : nx < 2 ^ 64) :
    ∃ out, stepper.do_work c np nx nt = some out ∧
      spec_generation c np nx nt = some out ∧ Shape np nx out := by
  obtain ⟨U, g, hU, hg, hs, hcur, _⟩ := time_loop_eq c np nx nt hnp hnx hw
  refine ⟨g, ?_, hg, hs⟩
  unfold stepper.do_work
  simp only [seed_loop_eq, hU, hcur, publish_map_some, Option.bind_eq_bind, Option.some_bind,
    bind, Option.bind]

theorem spec_step_cells (c : Consts R) (np : Nat) (g g1 : List (partition_data R))
    (h : spec_step c np g = some g1) :
    g1.length = np ∧ ∀ i, i < np → g1[i]? = spec_partition c np g i := by
  obtain ⟨hlen, hcells⟩ := map_range_eq_map_some _ _ _ (publish_eq_some _ _ h)
  refine ⟨hlen, fun i hi => ?_⟩
  obtain ⟨v, hv, hl⟩ := hcells i hi
  rw [hv, hl]

/-- C1: for `np ≥ 1` and `nx ≥ 2`, the space returned by `do_work(np, nx, nt)`,
the buffer `U[nt % 2]` of the two-buffer loop, is generation `nt` of the
recurrence whose generation `0` is the seed and whose generation `t + 1` has
partition `i` equal to
`heat_part(gen_t[idx(i-1, np)], gen_t[i], gen_t[idx(i+1, np)])` for every
`t < nt` and `i < np`; it is the `nt`-fold iterate of the pure step. -/
theorem do_work_refines_recurrence (c : Consts R) (np nx nt : Nat)
    (hnp : 1 ≤ np) (hnx : 2 ≤ nx) (hw : nx < 2 ^ 64) :
    ∃ gen : Nat → List (partition_data R),
      gen 0 = spec_seed np nx ∧
      (∀ t, t < nt → (gen (t + 1)).length = np ∧
        ∀ i, i < np → (gen (t + 1))[i]? = spec_partition c np (gen t) i) ∧
      stepper.do_work c np nx nt = some (gen nt) ∧
      spec_generation c np nx nt = some (gen nt) := by
  refine ⟨fun t => (spec_generation c np nx t).getD [], rfl, ?_, ?_⟩
  · intro t _
    obtain ⟨g, hg, _⟩ := spec_generation_some c np nx t hnp hnx hw
    obtain ⟨g1, hg1, _⟩ := spec_generation_some c np nx (t + 1) hnp hnx hw
    have hstep : spec_step c np g = some g1 := by
      have := hg1
      simp only [spec_generation, hg, Option.some_bind] at this
      exact this
    simp only [hg, hg1, Option.getD_some]
    exact spec_step_cells c np g g1 hstep
  · obtain ⟨out, hd, hg, _⟩ := do_work_eq_generation c np nx nt hnp hnx hw
    simp only [hg, Option.getD_some]
    exact ⟨hd, trivial⟩

/-- C1 at `np = 4`, `nx = 3`, `nt = 2` over the rationals. -/
theorem do_work_refines_recurrence_witness :
    ∃ gen : Nat → List (partition_data ℚ),
      gen 0 = spec_seed 4 3 ∧
      (∀ t, t < 2 → (gen (t + 1)).length = 4 ∧
        ∀ i, i < 4 → (gen (t + 1))[i]? = spec_partition defaults 4 (gen t) i) ∧
      stepper.do_work defaults 4 3 2 = some (gen 2) ∧
      spec_generation defaults 4 3 2 = some (gen 2) :=
  do_work_refines_recurrence defaults 4 3 2 (by decide) (by decide) (by decide)

end kernel

/-! ## Exact arithmetic -/

section field
variable {R : Type} [Field R]

theorem do_work_zero (c : Consts R) (np nx : Nat) :
    stepper.do_work c np nx 0 = some (spec_seed np nx) := by
  unfold stepper.do_work
  simp only [seed_loop_eq, for_each, List.range_zero, Option.bind_eq_bind, Option.some_bind,
    bind, Option.bind]
  show publish (Buffers.sel _ 0) = _
  simp [Buffers.sel, Buffers.put, publish_map_some]

theorem spec_seed_getElem? (np nx i j : Nat) (hi : i < np) (hj : j < nx) :
    ∃ p, (spec_seed (R := R) np nx)[i]? = some p ∧ p.length = nx ∧
      p[j]? = some ((i : R) * (nx : R) + (j : R)) := by
  refine ⟨(List.range nx).map fun (j : Nat) => (i : R) * (nx : R) + (j : R), ?_, by simp, ?_⟩
  · simp [spec_seed, List.getElem?_range hi]
  · simp [List.getElem?_range hj]

/-- C5: the seeded constructor `partition_data(nx, v)` yields `value[j] = v*nx + j`;
`do_work` calls it with `v = i`, so element `j` of generation-0 partition `i`
is `i*nx + j`, and `do_work(np, nx, 0)` returns exactly this seed. -/
theorem seed_contract (c : Consts R) (np nx : Nat) :
    (∀ v : R, ∃ p, partition_data.seeded nx v = some p ∧ p.length = nx ∧
      ∀ j, j < nx → p[j]? = some (v * (nx : R) + (j : R))) ∧
    ∃ out, stepper.do_work c np nx 0 = some out ∧ out.length = np ∧
      ∀ i j, i < np → j < nx → ∃ p, out[i]? = some p ∧ p.length = nx ∧
        p[j]? = some (((i * nx + j : Nat) : R)) := by
  constructor
  · intro v
    refine ⟨_, seeded_eq nx v, by simp, fun j hj => ?_⟩
    simp [List.getElem?_range hj]
  · refine ⟨_, do_work_zero c np nx, (spec_seed_shape np nx).1, fun i j hi hj => ?_⟩
    obtain ⟨p, hp, hl, he⟩ := spec_seed_getElem? (R := R) np nx i j hi hj
    exact ⟨p, hp, hl, by rw [he]; push_cast; rfl⟩

/-! ### Zero diffusion -/

/-- C6: with `k = 0.5`, `dt = 1`, `dx = 1`, `do_work(4, 3, 1)` starts from
generation 0 `[0,1,2], [3,4,5], [6,7,8], [9,10,11]` and returns a generation 1
whose partition 0 is `[6, 1, 2]`. -/
theorem scenario_A :
    stepper.do_work defaults 4 3 0 = some [[0, 1, 2], [3, 4, 5], [6, 7, 8], [9, 10, 11]] ∧
    stepper.heat_part defaults [9, 10, 11] [0, 1, 2] [3, 4, 5] = some [6, 1, 2] ∧
    ∃ out, stepper.do_work defaults 4 3 1 = some out ∧ out[0]? = some [6, 1, 2] := by
  exact ⟨by decide!, by decide!, [[6, 1, 2], [3, 4, 5], [6, 7, 8], [9, 10, 5]], by decide!, rfl⟩

/-! ### Degenerate configurations -/

theorem heat_part_pair (c : Consts R) (a0 a1 b0 b1 c0 c1 : R) :
    stepper.heat_part c [a0, a1] [b0, b1] [c0, c1]
      = some [stepper.heat c a1 b0 b1, stepper.heat c b0 b1 c0] := by
  obtain ⟨next, hp, hlen, h0, h1, _⟩ :=
    heat_part_cells c 2 [a0, a1] [b0, b1] [c0, c1] (by decide) (by decide) rfl rfl rfl
  rw [hp]
  match next, hlen, h0, h1 with
  | [x, y], _, h0, h1 =>
    simp at h0 h1
    rw [h0, h1]

theorem idx_single : idx (wsub 0 1) 1 = some 0 ∧ idx (wadd 0 1) 1 = some 0 := by decide

theorem spec_seed_single : spec_seed (R := R) 1 2 = [[0, 1]] := by
  simp [spec_seed, List.range_succ]

theorem dataflow_at_single (c : Consts R) (m : partition_data R) :
    stepper.dataflow_at c 1 [some m] 0 = stepper.heat_part c m m m := by
  unfold stepper.dataflow_at
  rw [idx_single.1, idx_single.2]
  rfl

theorem spec_step_single (c : Consts R) (m p : partition_data R)
    (h : stepper.heat_part c m m m = some p) : spec_step c 1 [m] = some [p] := by
  have hs : spec_partition c 1 [m] 0 = stepper.heat_part c m m m := by
    unfold spec_partition
    rw [idx_single.1, idx_single.2]
    rfl
  unfold spec_step
  simp [List.range_succ, hs, h, publish]

theorem spec_generation_one (c : Consts R) (np nx : Nat) :
    spec_generation c np nx 1 = spec_step c np (spec_seed np nx) := rfl

/-- C10: for `np = 1`, `nx = 2`, `nt = 1` and any `k`, `dt`, `dx`, both neighbour
indices `idx(0-1, 1)` and `idx(0+1, 1)` are `0`, so `do_work` hands
`left = middle = right = m = [0, 1]` to `heat_part`; every access is in bounds
(the run has a value) and the returned partition is
`[heat(m[1], m[0], m[1]), heat(m[0], m[1], m[0])]`. -/
theorem single_partition_run (c : Consts R) :
    (idx (wsub 0 1) 1 = some 0 ∧ idx (wadd 0 1) 1 = some 0) ∧
    stepper.do_work c 1 2 0 = some [[0, 1]] ∧
    stepper.dataflow_at c 1 [some [0, 1]] 0 = stepper.heat_part c [0, 1] [0, 1] [0, 1] ∧
    stepper.heat_part c [0, 1] [0, 1] [0, 1]
      = some [stepper.heat c 1 0 1, stepper.heat c 0 1 0] ∧
    stepper.do_work c 1 2 1 = some [[stepper.heat c 1 0 1, stepper.heat c 0 1 0]] := by
  refine ⟨idx_single, by rw [do_work_zero, spec_seed_single], dataflow_at_single c _,
    heat_part_pair c 0 1 0 1 0 1, ?_⟩
  obtain ⟨out, ho, hg, _⟩ := do_work_eq_generation c 1 2 1 (by decide) (by decide) (by decide)
  rw [ho, ← hg]
  rw [spec_generation_one, spec_seed_single]
  exact spec_step_single c _ _ (heat_part_pair c 0 1 0 1 0 1)

/-! ### Absent configuration checks -/

theorem time_loop_empty (c : Consts R) (nt : Nat) :
    for_each (stepper.time_step_in (List.range 0) c 0) (List.range nt)
      (⟨[], []⟩ : Buffers R) = some ⟨[], []⟩ := by
  induction nt with
  | zero => rfl
  | succ t ih =>
    rw [for_each_range_succ, ih]
    show stepper.time_step_in (List.range 0) c 0 ⟨[], []⟩ t = _
    unfold stepper.time_step_in
    simp only [List.range_zero, for_each, Buffers.sel, Buffers.put]
    split <;> simp

/-- C9, as the code behaves: `do_work` checks nothing before it starts.  With
`np = 0` it returns the empty space for every `nx` and `nt`, and with `nt = 0`
it returns the `np` seeded partitions for every `nx`, also for `nx < 2`. -/
theorem do_work_unchecked (c : Consts R) :
    (∀ nx nt, stepper.do_work c 0 nx nt = some []) ∧
    (∀ np nx, stepper.do_work c np nx 0 = some (spec_seed np nx)) := by
  refine ⟨fun nx nt => ?_, fun np nx => do_work_zero c np nx⟩
  unfold stepper.do_work
  have := time_loop_empty c nt
  simp only [List.range_zero] at this
  simp only [List.range_zero, for_each, alloc, List.replicate, Option.bind_eq_bind,
    Option.some_bind, bind, Option.bind, Buffers.put, if_true, this]
  simp [Buffers.sel, publish]

/-- C9 fails on the code: with `np = 0` (`nx = 3`, `nt = 5`) and with `nx = 1`
(`np = 1`, `nt = 0`) `do_work` returns a space. -/
theorem do_work_unchecked_counterexample :
    stepper.do_work defaults 0 3 5 = some [] ∧
    stepper.do_work defaults 1 1 0 = some [[0]] := by
  decide!

end field

/-! ## Shape, safety and locality -/

section structure_of_a_run
variable {R : Type} [Add R] [Sub R] [Mul R] [Div R] [NatCast R]

/-- C11: for `np ≥ 1`, `nx ≥ 2` and every `nt`, the space returned by
`do_work(np, nx, nt)` has exactly `np` partitions, each of length exactly `nx`;
`heat_part` returns a buffer of the length of its inputs and one generation
step preserves the shape. -/
theorem do_work_shape (c : Consts R) (np nx nt : Nat)
    (hnp : 1 ≤ np) (hnx : 2 ≤ nx) (hw : nx < 2 ^ 64) :
    (∃ out, stepper.do_work c np nx nt = some out ∧ out.length = np ∧
      ∀ p ∈ out, p.length = nx) ∧
    (∀ left middle right : partition_data R,
      left.length = nx → middle.length = nx → right.length = nx →
      ∃ next, stepper.heat_part c left middle right = some next ∧ next.length = nx) ∧
    ∀ g : List (partition_data R), g.length = np → (∀ p ∈ g, p.length = nx) →
      ∃ g1, spec_step c np g = some g1 ∧ g1.length = np ∧ ∀ p ∈ g1, p.length = nx := by
  refine ⟨?_, ?_, ?_⟩
  · obtain ⟨out, ho, _, hs⟩ := do_work_eq_generation c np nx nt hnp hnx hw
    exact ⟨out, ho, hs.1, hs.2⟩
  · intro left middle right hl hm hr
    obtain ⟨next, hp, hlen, _⟩ := heat_part_cells c nx left middle right hnx hw hl hm hr
    exact ⟨next, hp, hlen⟩
  · intro g hg1 hg2
    obtain ⟨g1, h1, hs⟩ := spec_step_some c np nx g ⟨hg1, hg2⟩ hnp hnx hw
    exact ⟨g1, h1, hs.1, hs.2⟩

/-- C11 at `np = 4`, `nx = 3`, `nt = 2` over the rationals. -/
theorem do_work_shape_witness :
    ∃ out, stepper.do_work defaults 4 3 2 = some out ∧ out.length = 4 ∧
      ∀ p ∈ out, p.length = 3 :=
  (do_work_shape defaults 4 3 2 (by decide) (by decide) (by decide)).1

/-- C17: for `size ≥ 1` and every `i`, `idx(i, size)` has a value below `size`
(no remainder by zero); and for `np ≥ 1`, `nx ≥ 2` and partitions of length
`nx`, every index used by `do_work` (`idx(i-1, np)`, `i`, `idx(i+1, np)` into
`current`, `i` into `next`) and by `heat_part` (`size-1` into `left`; `0`, `1`,
`i-1`, `i`, `i+1`, `size-2`, `size-1` into `middle`; `0` into `right`; `0`,
`i`, `size-1` into `next`) is within bounds, so `heat_part`, the dataflow and
`do_work` all have a value. -/
theorem index_safety (c : Consts R) (np nx : Nat)
    (hnp : 1 ≤ np) (hnx : 2 ≤ nx) (hw : nx < 2 ^ 64) :
    (∀ i size, 1 ≤ size → ∃ r, idx i size = some r ∧ r < size) ∧
    (∀ i ∈ List.range np, ∃ il ir, idx (wsub i 1) np = some il ∧
      idx (wadd i 1) np = some ir ∧ il < np ∧ i < np ∧ ir < np) ∧
    (wsub nx 1 < nx ∧ 0 < nx ∧ 1 < nx ∧ wsub nx 2 < nx ∧
      ∀ i ∈ List.range' 1 (wsub nx 1 - 1), wsub i 1 < nx ∧ i < nx ∧ wadd i 1 < nx) ∧
    (∀ left middle right : partition_data R,
      left.length = nx → middle.length = nx → right.length = nx →
      stepper.heat_part c left middle right ≠ none) ∧
    (∀ g : List (partition_data R), g.length = np → (∀ p ∈ g, p.length = nx) →
      ∀ i ∈ List.range np, stepper.dataflow_at c np (g.map some) i ≠ none) ∧
    ∀ nt, stepper.do_work c np nx nt ≠ none := by
  refine ⟨fun i size h => idx_isSome i size h, ?_, ?_, ?_, ?_, ?_⟩
  · intro i hi
    rw [List.mem_range] at hi
    obtain ⟨il, hil, hil2⟩ := idx_isSome (wsub i 1) np hnp
    obtain ⟨ir, hir, hir2⟩ := idx_isSome (wadd i 1) np hnp
    exact ⟨il, ir, hil, hir, hil2, hi, hir2⟩
  · rw [wsub_of_le nx 1 (by omega) hw, wsub_of_le nx 2 hnx hw]
    refine ⟨by omega, by omega, by omega, by omega, ?_⟩
    intro i hi
    rw [List.mem_range'_1] at hi
    rw [wsub_of_le i 1 hi.1 (by omega), wadd_one i (by omega)]
    omega
  · intro left middle right hl hm hr
    obtain ⟨next, hp, _⟩ := heat_part_cells c nx left middle right hnx hw hl hm hr
    rw [hp]
    exact Option.some_ne_none next
  · intro g hg1 hg2 i hi
    rw [List.mem_range] at hi
    obtain ⟨p, hp, _⟩ := spec_partition_some c np nx g ⟨hg1, hg2⟩ hnp hnx hw i hi
    rw [dataflow_at_map_some, hp]
    exact Option.some_ne_none p
  · intro nt
    obtain ⟨out, ho, _⟩ := do_work_eq_generation c np nx nt hnp hnx hw
    rw [ho]
    exact Option.some_ne_none out

/-- C17 at `np = 4`, `nx = 3` over the rationals. -/
theorem index_safety_witness :
    (∀ i size, 1 ≤ size → ∃ r, idx i size = some r ∧ r < size) ∧
    ∀ nt, stepper.do_work defaults 4 3 nt ≠ none :=
  ⟨(index_safety defaults 4 3 (by decide) (by decide) (by decide)).1,
    (index_safety defaults 4 3 (by decide) (by decide) (by decide)).2.2.2.2.2⟩

/-- The kernel reads `left` only at `size - 1` and `right` only at `0`. -/
theorem heat_part_in_congr (order : Nat → List Nat) (c : Consts R)
    (left left1 middle right right1 : partition_data R)
    (hl : left[wsub middle.length 1]? = left1[wsub middle.length 1]?)
    (hr : right[0]? = right1[0]?) :
    stepper.heat_part_in order c left middle right
      = stepper.heat_part_in order c left1 middle right1 := by
  unfold stepper.heat_part_in
  simp only [hl, hr]

/-- C14: the generation-`(t+1)` partition `i` that one step of `do_work`
computes is the same for two generation-`t` spaces that agree at the indices
`idx(i-1, np)`, `i` and `idx(i+1, np)`; more precisely it is the same as soon as
the spaces agree on partition `i`, on the last element of the left neighbour
and on the first element of the right neighbour. -/
theorem dataflow_locality (c : Consts R) (np i il ir : Nat) (S S1 : List (partition_data R))
    (hil : idx (wsub i 1) np = some il) (hir : idx (wadd i 1) np = some ir) :
    (S[il]? = S1[il]? → S[i]? = S1[i]? → S[ir]? = S1[ir]? →
      stepper.dataflow_at c np (S.map some) i = stepper.dataflow_at c np (S1.map some) i) ∧
    (∀ left left1 middle right right1 : partition_data R,
      S[il]? = some left → S1[il]? = some left1 →
      S[i]? = some middle → S1[i]? = some middle →
      S[ir]? = some right → S1[ir]? = some right1 →
      left[wsub middle.length 1]? = left1[wsub middle.length 1]? → right[0]? = right1[0]? →
      stepper.dataflow_at c np (S.map some) i = stepper.dataflow_at c np (S1.map some) i ∧
      stepper.dataflow_at c np (S.map some) i
        = stepper.heat_part c left middle right) := by
  constructor
  · intro h1 h2 h3
    rw [dataflow_at_map_some, dataflow_at_map_some]
    unfold spec_partition
    simp only [hil, hir, Option.bind_eq_bind, Option.some_bind, h1, h2, h3]
  · intro left left1 middle right right1 h1 h1' h2 h2' h3 h3' hl hr
    have e : ∀ (T : List (partition_data R)) (a b d : partition_data R),
        T[il]? = some a → T[i]? = some b → T[ir]? = some d →
        stepper.dataflow_at c np (T.map some) i = stepper.heat_part c a b d := by
      intro T a b d ha hb hd
      rw [dataflow_at_map_some]
      unfold spec_partition
      simp only [hil, hir, ha, hb, hd, Option.bind_eq_bind, Option.some_bind, bind, Option.bind]
    rw [e S left middle right h1 h2 h3, e S1 left1 middle right1 h1' h2' h3']
    exact ⟨heat_part_in_congr _ c left left1 middle right right1 hl hr, rfl⟩

/-- C14 at `np = 4`, `i = 0` for two spaces that differ only in partition 2. -/
theorem dataflow_locality_witness :
    stepper.dataflow_at defaults 4
        ([[0, 1, 2], [3, 4, 5], [6, 7, 8], [9, 10, 11]].map some) 0
      = stepper.dataflow_at defaults 4
        ([[0, 1, 2], [3, 4, 5], [99, 98, 97], [9, 10, 11]].map some) 0 :=
  (dataflow_locality defaults 4 0 3 1 [[0, 1, 2], [3, 4, 5], [6, 7, 8], [9, 10, 11]]
    [[0, 1, 2], [3, 4, 5], [99, 98, 97], [9, 10, 11]] (by decide) (by decide)).1 rfl rfl rfl

/-! ## Independence of the schedule -/

theorem fill_congr {α : Type} (h : Nat → Option α) (o1 o2 : List Nat) (buf : List (Option α))
    (hmem : ∀ j, j ∈ o1 ↔ j ∈ o2) : fill h o1 buf = fill h o2 buf := by
  apply List.ext_getElem?
  intro j
  rw [fill_getElem?, fill_getElem?]
  simp only [hmem j]

theorem for_each_store_eq_none {α : Type} (h : Nat → Option α) (order : List Nat)
    (buf : List (Option α))
    (hbad : ∃ i ∈ order, ¬ ((h i).isSome = true ∧ i < buf.length)) :
    for_each (fun b i => (h i).bind (store b i)) order buf = none := by
  induction order generalizing buf with
  | nil => obtain ⟨i, hi, _⟩ := hbad; simp at hi
  | cons i rest ih =>
    simp only [for_each]
    cases hv : h i with
    | none => rfl
    | some v =>
      simp only [Option.some_bind, store]
      by_cases hlt : i < buf.length
      · rw [if_pos hlt, Option.some_bind]
        apply ih
        obtain ⟨k, hk, hkbad⟩ := hbad
        rcases List.mem_cons.mp hk with rfl | hk1
        · exact absurd ⟨by rw [hv]; rfl, hlt⟩ hkbad
        · exact ⟨k, hk1, by simpa using hkbad⟩
      · rw [if_neg hlt]; rfl

theorem for_each_store_perm {α : Type} (h : Nat → Option α) (o1 o2 : List Nat)
    (buf : List (Option α)) (hp : o1.Perm o2) :
    for_each (fun b i => (h i).bind (store b i)) o1 buf
      = for_each (fun b i => (h i).bind (store b i)) o2 buf := by
  by_cases hall : ∀ i ∈ o1, (h i).isSome = true ∧ i < buf.length
  · rw [for_each_store h o1 buf (fun i hi => (hall i hi).1) (fun i hi => (hall i hi).2),
      for_each_store h o2 buf (fun i hi => (hall i (hp.mem_iff.mpr hi)).1)
        (fun i hi => (hall i (hp.mem_iff.mpr hi)).2),
      fill_congr h o1 o2 buf (fun j => hp.mem_iff)]
  · have hbad : ∃ i ∈ o1, ¬ ((h i).isSome = true ∧ i < buf.length) := by
      by_contra hno
      exact hall (fun i hi => by
        by_contra hn
        exact hno ⟨i, hi, hn⟩)
    obtain ⟨i, hi, hn⟩ := hbad
    rw [for_each_store_eq_none h o1 buf ⟨i, hi, hn⟩,
      for_each_store_eq_none h o2 buf ⟨i, hp.mem_iff.mp hi, hn⟩]

theorem heat_part_in_perm (order : Nat → List Nat) (c : Consts R)
    (left middle right : partition_data R)
    (hp : ∀ size, (order size).Perm (List.range' 1 (wsub size 1 - 1))) :
    stepper.heat_part_in order c left middle right = stepper.heat_part c left middle right := by
  have hfe : ∀ buf : List (Option R),
      for_each (stepper.heat_part_body c middle) (order middle.length) buf
        = for_each (stepper.heat_part_body c middle)
            (List.range' 1 (wsub middle.length 1 - 1)) buf :=
    fun buf => for_each_store_perm (stepper.heat_at c middle) _ _ buf (hp middle.length)
  unfold stepper.heat_part stepper.heat_part_in
  simp only [hfe]

theorem dataflow_at_in_perm (order : Nat → List Nat) (c : Consts R) (np : Nat)
    (current : space R) (i : Nat)
    (hp : ∀ size, (order size).Perm (List.range' 1 (wsub size 1 - 1))) :
    stepper.dataflow_at_in order c np current i = stepper.dataflow_at c np current i := by
  unfold stepper.dataflow_at_in stepper.dataflow_at
  simp only [heat_part_in_perm order c _ _ _ hp]

theorem time_step_sched_eq (s : Schedule) (c : Consts R) (np : Nat) (hs : s.Fair np) :
    stepper.time_step_sched s c np = stepper.time_step_in (List.range np) c np := by
  funext U t
  have hb : stepper.step_body_sched s c np t (U.sel (t % 2))
      = stepper.step_body c np (U.sel (t % 2)) := by
    funext next i
    unfold stepper.step_body_sched stepper.step_body
    rw [dataflow_at_in_perm _ c np _ i (hs.2 t i)]
  have hfe : for_each (stepper.step_body c np (U.sel (t % 2))) (s.outer t)
        (U.sel ((t + 1) % 2))
      = for_each (stepper.step_body c np (U.sel (t % 2))) (List.range np)
        (U.sel ((t + 1) % 2)) :=
    for_each_store_perm (stepper.dataflow_at c np (U.sel (t % 2))) _ _ _ (hs.1 t)
  unfold stepper.time_step_sched stepper.time_step_in
  simp only [hb, hfe]

theorem do_work_sched_eq (s : Schedule) (c : Consts R) (np nx nt : Nat) (hs : s.Fair np) :
    stepper.do_work_sched s c np nx nt = stepper.do_work c np nx nt := by
  unfold stepper.do_work_sched stepper.do_work
  rw [time_step_sched_eq s c np hs]

theorem fair_sequential (np : Nat) : (Schedule.sequential np).Fair np := by
  unfold Schedule.Fair Schedule.sequential
  dsimp only
  exact ⟨fun _ => List.Perm.refl _, fun _ _ _ => List.Perm.refl _⟩

theorem fair_reverse (np : Nat) :
    Schedule.Fair ⟨fun _ => (List.range np).reverse,
      fun _ _ size => (List.range' 1 (wsub size 1 - 1)).reverse⟩ np := by
  unfold Schedule.Fair
  dsimp only
  exact ⟨fun _ => List.reverse_perm _, fun _ _ _ => List.reverse_perm _⟩

/-- C12: the output of `do_work` is a function of `(np, nx, nt, k, dt, dx)`
only: under any two schedules that visit the partition indices `0 .. np-1` of
each generation step and the interior indices `1 .. nx-2` of each kernel exactly
once, in whatever order, the runs return the same result, which is the one of
the order in which the source writes its loops. -/
theorem do_work_deterministic (s1 s2 : Schedule) (c : Consts R) (np nx nt : Nat)
    (h1 : s1.Fair np) (h2 : s2.Fair np) :
    stepper.do_work_sched s1 c np nx nt = stepper.do_work_sched s2 c np nx nt ∧
    stepper.do_work_sched s1 c np nx nt = stepper.do_work c np nx nt ∧
    stepper.do_work_sched (Schedule.sequential np) c np nx nt = stepper.do_work c np nx nt := by
  refine ⟨?_, do_work_sched_eq s1 c np nx nt h1,
    do_work_sched_eq _ c np nx nt (fair_sequential np)⟩
  rw [do_work_sched_eq s1 c np nx nt h1, do_work_sched_eq s2 c np nx nt h2]

/-- C12 at `np = 4`, `nx = 3`, `nt = 2`: both loops reversed against the order
of the source. -/
theorem do_work_deterministic_witness :
    stepper.do_work_sched
        ⟨fun _ => (List.range 4).reverse,
          fun _ _ size => (List.range' 1 (wsub size 1 - 1)).reverse⟩ defaults 4 3 2
      = stepper.do_work_sched (Schedule.sequential 4) defaults 4 3 2 :=
  (do_work_deterministic
    ⟨fun _ => (List.range 4).reverse, fun _ _ size => (List.range' 1 (wsub size 1 - 1)).reverse⟩
    (Schedule.sequential 4) defaults 4 3 2
    (fair_reverse 4) (fair_sequential 4)).1

/-! ## Where the new values come from -/

theorem heat_part_mem (c : Consts R) (nx : Nat) (left middle right : partition_data R)
    (hnx : 2 ≤ nx) (hw : nx < 2 ^ 64)
    (hl : left.length = nx) (hm : middle.length = nx) (hr : right.length = nx) :
    ∃ next, stepper.heat_part c left middle right = some next ∧ next.length = nx ∧
      ∀ v ∈ next, ∃ a b d, (a ∈ left ∨ a ∈ middle) ∧ b ∈ middle ∧ (d ∈ middle ∨ d ∈ right) ∧
        v = stepper.heat c a b d := by
  obtain ⟨next, hp, hlen, h0, hlast, hmid⟩ :=
    heat_part_cells c nx left middle right hnx hw hl hm hr
  refine ⟨next, hp, hlen, fun v hv => ?_⟩
  obtain ⟨j, hj, hjv⟩ := List.getElem_of_mem hv
  have hcell : next[j]? = some v := by rw [List.getElem?_eq_getElem hj, hjv]
  rcases Nat.eq_zero_or_pos j with hz | hpos
  · subst hz
    rw [h0] at hcell
    exact ⟨_, _, _, Or.inl (List.getElem_mem _), List.getElem_mem _,
      Or.inl (List.getElem_mem _), (Option.some.inj hcell).symm⟩
  · rcases Nat.lt_or_ge j (nx - 1) with hlt | hge
    · rw [hmid j hpos (by omega), heat_at_interior c middle j hpos (by omega) (by omega)]
        at hcell
      exact ⟨_, _, _, Or.inr (List.getElem_mem _), List.getElem_mem _,
        Or.inl (List.getElem_mem _), (Option.some.inj hcell).symm⟩
    · have e : j = nx - 1 := by omega
      subst e
      rw [hlast] at hcell
      exact ⟨_, _, _, Or.inr (List.getElem_mem _), List.getElem_mem _,
        Or.inr (List.getElem_mem _), (Option.some.inj hcell).symm⟩

theorem spec_partition_eq (c : Consts R) (np nx : Nat) (g : List (partition_data R))
    (hg : Shape np nx g) (hnp : 1 ≤ np) (i : Nat) (hi : i < np) :
    ∃ il ir l m r, idx (wsub i 1) np = some il ∧ idx (wadd i 1) np = some ir ∧
      g[il]? = some l ∧ g[i]? = some m ∧ g[ir]? = some r ∧
      l.length = nx ∧ m.length = nx ∧ r.length = nx ∧
      spec_partition c np g i = stepper.heat_part c l m r := by
  obtain ⟨il, hil, hil2⟩ := idx_isSome (wsub i 1) np hnp
  obtain ⟨ir, hir, hir2⟩ := idx_isSome (wadd i 1) np hnp
  have hlen := hg.1
  have e1 : g[il]? = some g[il] := List.getElem?_eq_getElem (by omega)
  have e2 : g[i]? = some g[i] := List.getElem?_eq_getElem (by omega)
  have e3 : g[ir]? = some g[ir] := List.getElem?_eq_getElem (by omega)
  refine ⟨il, ir, g[il], g[i], g[ir], hil, hir, e1, e2, e3, hg.2 _ (List.getElem_mem _),
    hg.2 _ (List.getElem_mem _), hg.2 _ (List.getElem_mem _), ?_⟩
  unfold spec_partition
  simp only [hil, hir, e1, e2, e3, Option.bind_eq_bind, Option.some_bind, bind, Option.bind]

theorem spec_step_mem (c : Consts R) (np nx : Nat) (g g1 : List (partition_data R))
    (hg : Shape np nx g) (hnp : 1 ≤ np) (h : spec_step c np g = some g1) :
    ∀ p ∈ g1, ∃ l m r, l ∈ g ∧ m ∈ g ∧ r ∈ g ∧ stepper.heat_part c l m r = some p := by
  obtain ⟨hlen, hcells⟩ := spec_step_cells c np g g1 h
  intro p hp
  obtain ⟨i, hi, hip⟩ := List.getElem_of_mem hp
  have hc := hcells i (by omega)
  rw [List.getElem?_eq_getElem hi, hip] at hc
  obtain ⟨il, ir, l, m, r, _, _, hl, hm, hr, _, _, _, he⟩ :=
    spec_partition_eq c np nx g hg hnp i (by omega)
  exact ⟨l, m, r, List.getElem?_mem hl, List.getElem?_mem hm, List.getElem?_mem hr,
    by rw [← he, ← hc]⟩

end structure_of_a_run

/-! ## Bounded growth -/

section ordered
variable {R : Type} [LinearOrderedField R]

theorem heat_half (c : Consts R) (hc : c.k * c.dt / (c.dx * c.dx) = 1 / 2) (l m r : R) :
    stepper.heat c l m r = (l + r) / 2 := by
  unfold stepper.heat
  rw [hc]
  push_cast
  ring

theorem spec_seed_bounded (np nx : Nat) :
    ∀ p ∈ spec_seed (R := R) np nx, ∀ v ∈ p, 0 ≤ v ∧ v ≤ ((np * nx - 1 : Nat) : R) := by
  intro p hp v hv
  simp only [spec_seed, List.mem_map, List.mem_range] at hp
  obtain ⟨i, hi, rfl⟩ := hp
  simp only [List.mem_map, List.mem_range] at hv
  obtain ⟨j, hj, rfl⟩ := hv
  have hle : i * nx + j ≤ np * nx - 1 := by
    have h1 : (i + 1) * nx ≤ np * nx := Nat.mul_le_mul_right nx hi
    have h2 : (i + 1) * nx = i * nx + nx := by ring
    omega
  have hcast : (i : R) * (nx : R) + (j : R) = ((i * nx + j : Nat) : R) := by push_cast; rfl
  rw [hcast]
  exact ⟨Nat.cast_nonneg _, Nat.cast_le.mpr hle⟩

theorem spec_generation_bounded (c : Consts R) (hc : c.k * c.dt / (c.dx * c.dx) = 1 / 2)
    (np nx nt : Nat) (hnp : 1 ≤ np) (hnx : 2 ≤ nx) (hw : nx < 2 ^ 64) (lo hi : R)
    (h0 : ∀ p ∈ spec_seed (R := R) np nx, ∀ v ∈ p, lo ≤ v ∧ v ≤ hi) :
    ∃ g, spec_generation c np nx nt = some g ∧ Shape np nx g ∧
      ∀ p ∈ g, ∀ v ∈ p, lo ≤ v ∧ v ≤ hi := by
  induction nt with
  | zero => exact ⟨_, rfl, spec_seed_shape np nx, h0⟩
  | succ t ih =>
    obtain ⟨g, hg, hs, hb⟩ := ih
    obtain ⟨g1, hg1, hs1⟩ := spec_step_some c np nx g hs hnp hnx hw
    refine ⟨g1, by simp [spec_generation, hg, hg1], hs1, ?_⟩
    intro p hp v hv
    obtain ⟨l, m, r, hl, hm, hr, hpart⟩ := spec_step_mem c np nx g g1 hs hnp hg1 p hp
    obtain ⟨next, hnext, _, hmem⟩ := heat_part_mem c nx l m r hnx hw
      (hs.2 l hl) (hs.2 m hm) (hs.2 r hr)
    rw [hpart] at hnext
    obtain rfl := Option.some.inj hnext
    obtain ⟨a, b, d, ha, _, hd, rfl⟩ := hmem v hv
    have hba : lo ≤ a ∧ a ≤ hi := by
      rcases ha with ha | ha
      · exact hb l hl a ha
      · exact hb m hm a ha
    have hbd : lo ≤ d ∧ d ≤ hi := by
      rcases hd with hd | hd
      · exact hb m hm d hd
      · exact hb r hr d hd
    rw [heat_half c hc]
    constructor
    · linarith [hba.1, hbd.1]
    · linarith [hba.2, hbd.2]

/-- C13: with `k*dt/dx^2 = 0.5`, over exact arithmetic, for `np ≥ 1`, `nx ≥ 2`
and every `nt`, every value of the space returned by `do_work(np, nx, nt)` lies
between the minimum `0` and the maximum `np*nx - 1` of generation 0; each new
value is the average of two values of the previous generation. -/
theorem bounded_growth (c : Consts R) (hc : c.k * c.dt / (c.dx * c.dx) = 1 / 2)
    (np nx nt : Nat) (hnp : 1 ≤ np) (hnx : 2 ≤ nx) (hw : nx < 2 ^ 64) :
    (∃ out, stepper.do_work c np nx nt = some out ∧
      ∀ p ∈ out, ∀ v ∈ p, 0 ≤ v ∧ v ≤ ((np * nx - 1 : Nat) : R)) ∧
    ∀ l m r : R, stepper.heat c l m r = (l + r) / 2 := by
  refine ⟨?_, heat_half c hc⟩
  obtain ⟨out, ho, hg, _⟩ := do_work_eq_generation c np nx nt hnp hnx hw
  obtain ⟨g, hg1, _, hb⟩ := spec_generation_bounded c hc np nx nt hnp hnx hw 0 _
    (spec_seed_bounded np nx)
  rw [hg] at hg1
  obtain rfl := Option.some.inj hg1
  exact ⟨out, ho, hb⟩

/-- C13 at the defaults `k = 0.5`, `dt = 1`, `dx = 1` with `np = 4`, `nx = 3`,
`nt = 7`. -/
theorem bounded_growth_witness :
    ∃ out, stepper.do_work defaults 4 3 7 = some out ∧
      ∀ p ∈ out, ∀ v ∈ p, 0 ≤ v ∧ v ≤ ((4 * 3 - 1 : Nat) : ℚ) :=
  (bounded_growth defaults (by norm_num [defaults]) 4 3 7 (by decide) (by decide)
    (by decide)).1

end ordered

/-! ## The concatenated array -/

theorem flatten_length_of_shape {α : Type} (g : List (List α)) (nx : Nat)
    (hall : ∀ q ∈ g, q.length = nx) : g.flatten.length = g.length * nx := by
  induction g with
  | nil => simp
  | cons q rest ih =>
    rw [List.flatten_cons, List.length_append, ih (fun r hr => hall r (List.mem_cons_of_mem _ hr)),
      hall q (List.mem_cons_self _ _), List.length_cons]
    ring

theorem flatten_getElem? {α : Type} (g : List (List α)) (nx i j : Nat) (p : List α)
    (hall : ∀ q ∈ g, q.length = nx) (hp : g[i]? = some p) (hj : j < nx) :
    g.flatten[i * nx + j]? = p[j]? := by
  induction g generalizing i with
  | nil => simp at hp
  | cons q rest ih =>
    have hq : q.length = nx := hall q (List.mem_cons_self _ _)
    cases i with
    | zero =>
      simp only [List.getElem?_cons_zero, Option.some.injEq] at hp
      subst hp
      rw [List.flatten_cons, Nat.zero_mul, Nat.zero_add,
        List.getElem?_append_left (by omega)]
    | succ k =>
      simp only [List.getElem?_cons_succ] at hp
      have e : (k + 1) * nx + j - q.length = k * nx + j := by
        have : (k + 1) * nx = k * nx + nx := by ring
        omega
      rw [List.flatten_cons, List.getElem?_append_right (by
        have : (k + 1) * nx = k * nx + nx := by ring
        omega), e]
      exact ih k (fun r hr => hall r (List.mem_cons_of_mem _ hr)) hp

theorem index_split (np nx k : Nat) (hk : k < np * nx) :
    ∃ i j, i < np ∧ j < nx ∧ k = i * nx + j := by
  have hnx : 0 < nx := by
    rcases Nat.eq_zero_or_pos nx with h | h
    · subst h; simp at hk
    · exact h
  refine ⟨k / nx, k % nx, ?_, Nat.mod_lt _ hnx, ?_⟩
  · exact Nat.div_lt_of_lt_mul (by rw [Nat.mul_comm]; exact hk)
  · rw [Nat.mul_comm]; exact (Nat.div_add_mod k nx).symm

theorem index_lt (np nx i j : Nat) (hi : i < np) (hj : j < nx) : i * nx + j < np * nx := by
  have h1 : (i + 1) * nx ≤ np * nx := Nat.mul_le_mul_right nx hi
  have h2 : (i + 1) * nx = i * nx + nx := by ring
  omega

theorem eq_flatten_of_cells {α : Type} (g : List (List α)) (G : List α) (np nx : Nat)
    (hlen : g.length = np) (hall : ∀ q ∈ g, q.length = nx) (hG : G.length = np * nx)
    (hcells : ∀ i j p, i < np → j < nx → g[i]? = some p → G[i * nx + j]? = p[j]?) :
    G = g.flatten := by
  have hfl : g.flatten.length = np * nx := by rw [flatten_length_of_shape g nx hall, hlen]
  apply List.ext_getElem?
  intro k
  rcases Nat.lt_or_ge k (np * nx) with hk | hk
  · obtain ⟨i, j, hi, hj, rfl⟩ := index_split np nx k hk
    have hp : g[i]? = some g[i] := List.getElem?_eq_getElem (by omega)
    rw [hcells i j _ hi hj hp, flatten_getElem? g nx i j _ hall hp hj]
  · rw [List.getElem?_eq_none (by omega), List.getElem?_eq_none (by omega)]

/-! ## Periodic neighbours -/

theorem idx_pred (np i : Nat) (h1 : 1 ≤ np) (h2 : np < 2 ^ 63) (hi : i < np) :
    idx (wsub i 1) np = some (if i = 0 then np - 1 else i - 1) := by
  rw [wsub_one i (by omega)]
  split
  · rw [idx_of_neg _ _ h1 (by omega) (by omega)]
    have e : (2 ^ 64 - 1 + np) % 2 ^ 64 = np - 1 := by omega
    rw [e, Nat.mod_eq_of_lt (by omega)]
  · rw [idx_of_nonneg _ _ h1 (by omega), Nat.mod_eq_of_lt (by omega)]

theorem idx_succ (np i : Nat) (h1 : 1 ≤ np) (h2 : np < 2 ^ 63) (hi : i < np) :
    idx (wadd i 1) np = some (if i + 1 = np then 0 else i + 1) := by
  rw [wadd_one i (by omega), idx_of_nonneg _ _ h1 (by omega)]
  split
  · rename_i h
    rw [h, Nat.mod_self]
  · rw [Nat.mod_eq_of_lt (by omega)]

theorem pred_index (np nx i j : Nat) (hi : i < np) (hj : j < nx) :
    (i * nx + j + np * nx - 1) % (np * nx)
      = if j = 0 then (if i = 0 then np - 1 else i - 1) * nx + (nx - 1)
        else i * nx + (j - 1) := by
  have hk := index_lt np nx i j hi hj
  split
  · rename_i hj0
    subst hj0
    split
    · rename_i hi0
      subst hi0
      obtain ⟨m, rfl⟩ : ∃ m, np = m + 1 := ⟨np - 1, by omega⟩
      have h : (m + 1) * nx = m * nx + nx := by ring
      have e : 0 * nx + 0 + (m + 1) * nx - 1 = m * nx + (nx - 1) := by omega
      rw [e, Nat.add_sub_cancel, Nat.mod_eq_of_lt (by omega)]
    · rename_i hi0
      obtain ⟨m, rfl⟩ : ∃ m, i = m + 1 := ⟨i - 1, by omega⟩
      have h : (m + 1) * nx = m * nx + nx := by ring
      have e : (m + 1) * nx + 0 + np * nx - 1 = m * nx + (nx - 1) + np * nx := by omega
      rw [e, Nat.add_mod_right, Nat.add_sub_cancel, Nat.mod_eq_of_lt (by omega)]
  · rename_i hj0
    have e : i * nx + j + np * nx - 1 = i * nx + (j - 1) + np * nx := by omega
    rw [e, Nat.add_mod_right, Nat.mod_eq_of_lt (by omega)]

theorem succ_index (np nx i j : Nat) (hi : i < np) (hj : j < nx) :
    (i * nx + j + 1) % (np * nx)
      = if j = nx - 1 then (if i + 1 = np then 0 else i + 1) * nx + 0
        else i * nx + (j + 1) := by
  have hk := index_lt np nx i j hi hj
  have h : (i + 1) * nx = i * nx + nx := by ring
  split
  · rename_i hjl
    split
    · rename_i hin
      have e : i * nx + j + 1 = np * nx := by rw [← hin, h]; omega
      rw [e, Nat.mod_self, Nat.zero_mul]
    · rename_i hin
      have h2 : (i + 1 + 1) * nx ≤ np * nx := Nat.mul_le_mul_right nx (by omega)
      have h3 : (i + 1 + 1) * nx = (i + 1) * nx + nx := by ring
      have e : i * nx + j + 1 = (i + 1) * nx + 0 := by omega
      rw [e, Nat.mod_eq_of_lt (by omega)]
  · rename_i hjl
    have h1 : (i + 1) * nx ≤ np * nx := Nat.mul_le_mul_right nx hi
    have e : i * nx + j + 1 = i * nx + (j + 1) := by omega
    rw [e, Nat.mod_eq_of_lt (by omega)]

section concatenation
variable {R : Type} [Add R] [Sub R] [Mul R] [Div R] [NatCast R]

theorem global_at_eq (c : Consts R) (G : List R) (g : Nat) :
    global_at c G g = stepper.heat_reads c (G[(g + G.length - 1) % G.length]?) (G[g]?)
      (G[(g + 1) % G.length]?) := rfl

theorem heat_part_cells_reads (c : Consts R) (nx : Nat) (left middle right : partition_data R)
    (hnx : 2 ≤ nx) (hw : nx < 2 ^ 64)
    (hl : left.length = nx) (hm : middle.length = nx) (hr : right.length = nx) :
    ∃ next, stepper.heat_part c left middle right = some next ∧ next.length = nx ∧
      ∀ j, j < nx → next[j]? = stepper.heat_reads c
        (if j = 0 then left[nx - 1]? else middle[j - 1]?) (middle[j]?)
        (if j = nx - 1 then right[0]? else middle[j + 1]?) := by
  obtain ⟨next, hp, hlen, h0, hlast, hmid⟩ :=
    heat_part_cells c nx left middle right hnx hw hl hm hr
  refine ⟨next, hp, hlen, fun j hj => ?_⟩
  rcases Nat.eq_zero_or_pos j with hz | hpos
  · subst hz
    rw [h0, if_pos rfl, if_neg (by omega),
      List.getElem?_eq_getElem (show nx - 1 < left.length by omega),
      List.getElem?_eq_getElem (show 0 < middle.length by omega),
      List.getElem?_eq_getElem (show 0 + 1 < middle.length by omega)]
    rfl
  · rcases Nat.lt_or_ge j (nx - 1) with hlt | hge
    · rw [hmid j hpos (by omega), heat_at_interior c middle j hpos (by omega) (by omega),
        if_neg (by omega), if_neg (by omega),
        List.getElem?_eq_getElem (show j - 1 < middle.length by omega),
        List.getElem?_eq_getElem (show j < middle.length by omega),
        List.getElem?_eq_getElem (show j + 1 < middle.length by omega)]
      rfl
    · have e : j = nx - 1 := by omega
      subst e
      rw [hlast, if_neg (by omega), if_pos rfl,
        List.getElem?_eq_getElem (show nx - 1 - 1 < middle.length by omega),
        List.getElem?_eq_getElem (show nx - 1 < middle.length by omega),
        List.getElem?_eq_getElem (show 0 < right.length by omega)]
      have e2 : nx - 1 - 1 = nx - 2 := by omega
      simp only [e2]
      rfl

theorem global_at_cell (c : Consts R) (np nx : Nat) (g g1 : List (partition_data R))
    (hg : Shape np nx g) (hnp : 1 ≤ np) (hnp2 : np < 2 ^ 63) (hnx : 2 ≤ nx) (hw : nx < 2 ^ 64)
    (h : spec_step c np g = some g1) (i j : Nat) (p1 : partition_data R)
    (hi : i < np) (hj : j < nx) (hp1 : g1[i]? = some p1) :
    global_at c g.flatten (i * nx + j) = p1[j]? := by
  obtain ⟨_, hcells⟩ := spec_step_cells c np g g1 h
  obtain ⟨il, ir, l, m, r, hil, hir, hl, hm, hr, hll, hml, hrl, he⟩ :=
    spec_partition_eq c np nx g hg hnp i hi
  rw [idx_pred np i hnp hnp2 hi] at hil
  rw [idx_succ np i hnp hnp2 hi] at hir
  obtain rfl := Option.some.inj hil
  obtain rfl := Option.some.inj hir
  obtain ⟨next, hnext, _, hreads⟩ := heat_part_cells_reads c nx l m r hnx hw hll hml hrl
  have hp : some p1 = some next := by rw [← hp1, hcells i hi, he, hnext]
  obtain rfl := Option.some.inj hp
  rw [hreads j hj, global_at_eq, flatten_length_of_shape g nx hg.2, hg.1,
    pred_index np nx i j hi hj, succ_index np nx i j hi hj,
    flatten_getElem? g nx i j m hg.2 hm hj]
  congr 1
  · split
    · exact flatten_getElem? g nx _ (nx - 1) l hg.2 hl (by omega)
    · exact flatten_getElem? g nx i (j - 1) m hg.2 hm (by omega)
  · split
    · exact flatten_getElem? g nx _ 0 r hg.2 hr (by omega)
    · exact flatten_getElem? g nx i (j + 1) m hg.2 hm (by omega)

theorem global_step_flatten (c : Consts R) (np nx : Nat) (g g1 : List (partition_data R))
    (hg : Shape np nx g) (hnp : 1 ≤ np) (hnp2 : np < 2 ^ 63) (hnx : 2 ≤ nx) (hw : nx < 2 ^ 64)
    (h : spec_step c np g = some g1) :
    global_step c g.flatten = some g1.flatten := by
  obtain ⟨g2, hg2, hs1⟩ := spec_step_some c np nx g hg hnp hnx hw
  rw [h] at hg2
  obtain rfl := Option.some.inj hg2
  unfold global_step
  rw [← publish_map_some g1.flatten, flatten_length_of_shape g nx hg.2, hg.1]
  congr 1
  have hfl : g1.flatten.length = np * nx := by
    rw [flatten_length_of_shape g1 nx hs1.2, hs1.1]
  apply List.ext_getElem?
  intro k
  rcases Nat.lt_or_ge k (np * nx) with hk | hk
  · obtain ⟨i, j, hi, hj, rfl⟩ := index_split np nx k hk
    have hlen1 : i < g1.length := by rw [hs1.1]; exact hi
    have hp1 : g1[i]? = some g1[i] := List.getElem?_eq_getElem hlen1
    rw [List.getElem?_map, List.getElem?_range hk, List.getElem?_map,
      flatten_getElem? g1 nx i j _ hs1.2 hp1 hj, Option.map_some',
      global_at_cell c np nx g g1 hg hnp hnp2 hnx hw h i j _ hi hj hp1]
    have hjl : j < (g1[i]).length := by
      rw [hs1.2 _ (List.getElem_mem _)]; exact hj
    rw [List.getElem?_eq_getElem hjl]
    rfl
  · rw [List.getElem?_eq_none (by rw [List.length_map, List.length_range]; exact hk),
      List.getElem?_eq_none (by rw [List.length_map, hfl]; exact hk)]

end concatenation

/-! ## Transparency of the partitioning -/

section transparency
variable {R : Type} [Field R]

theorem spec_seed_flatten (np nx : Nat) :
    (spec_seed (R := R) np nx).flatten = global_seed (np * nx) := by
  symm
  apply eq_flatten_of_cells _ _ np nx (spec_seed_shape np nx).1 (spec_seed_shape np nx).2
    (by simp [global_seed])
  intro i j p hi hj hp
  obtain ⟨q, hq, _, hqj⟩ := spec_seed_getElem? (R := R) np nx i j hi hj
  rw [hq] at hp
  obtain rfl := Option.some.inj hp
  rw [hqj]
  simp only [global_seed, List.getElem?_map, List.getElem?_range (index_lt np nx i j hi hj),
    Option.map_some']
  push_cast
  rfl

theorem global_generation_flatten (c : Consts R) (np nx nt : Nat)
    (hnp : 1 ≤ np) (hnp2 : np < 2 ^ 63) (hnx : 2 ≤ nx) (hw : nx < 2 ^ 64) :
    ∃ g, spec_generation c np nx nt = some g ∧ Shape np nx g ∧
      global_generation c (np * nx) nt = some g.flatten := by
  induction nt with
  | zero => exact ⟨_, rfl, spec_seed_shape np nx, by rw [spec_seed_flatten]; rfl⟩
  | succ t ih =>
    obtain ⟨g, hg, hs, hG⟩ := ih
    obtain ⟨g1, hg1, hs1⟩ := spec_step_some c np nx g hs hnp hnx hw
    refine ⟨g1, by simp [spec_generation, hg, hg1], hs1, ?_⟩
    show (global_generation c (np * nx) t).bind (global_step c) = _
    rw [hG, Option.some_bind]
    exact global_step_flatten c np nx g g1 hs hnp hnp2 hnx hw hg1

theorem do_work_flatten (c : Consts R) (np nx nt : Nat)
    (hnp : 1 ≤ np) (hnp2 : np < 2 ^ 63) (hnx : 2 ≤ nx) (hw : nx < 2 ^ 64) :
    ∃ out, stepper.do_work c np nx nt = some out ∧ Shape np nx out ∧
      global_generation c (np * nx) nt = some out.flatten := by
  obtain ⟨out, ho, hg, hs⟩ := do_work_eq_generation c np nx nt hnp hnx hw
  obtain ⟨g, hg1, _, hG⟩ := global_generation_flatten c np nx nt hnp hnp2 hnx hw
  rw [hg] at hg1
  obtain rfl := Option.some.inj hg1
  exact ⟨out, ho, hs, hG⟩

/-- C15: for `np ≥ 1` and `nx ≥ 2`, the concatenation of the partitions returned
by `do_work(np, nx, nt)` into one array of `N = np*nx` points is the `nt`-fold
iterate, from `G0[g] = g`, of the unpartitioned periodic stencil
`G'[g] = heat(G[(g-1) mod N], G[g], G[(g+1) mod N])`; consequently two
partitionings of the same number of points give the same concatenated array. -/
theorem partitioning_transparent (c : Consts R) (np nx nt : Nat)
    (hnp : 1 ≤ np) (hnp2 : np < 2 ^ 63) (hnx : 2 ≤ nx) (hw : nx < 2 ^ 64) :
    (∃ out, stepper.do_work c np nx nt = some out ∧
      global_generation c (np * nx) nt = some out.flatten) ∧
    ∀ np1 nx1, 1 ≤ np1 → np1 < 2 ^ 63 → 2 ≤ nx1 → nx1 < 2 ^ 64 → np * nx = np1 * nx1 →
      ∃ out out1, stepper.do_work c np nx nt = some out ∧
        stepper.do_work c np1 nx1 nt = some out1 ∧ out.flatten = out1.flatten := by
  obtain ⟨out, ho, _, hG⟩ := do_work_flatten c np nx nt hnp hnp2 hnx hw
  refine ⟨⟨out, ho, hG⟩, ?_⟩
  intro np1 nx1 h1 h2 h3 h4 hN
  obtain ⟨out1, ho1, _, hG1⟩ := do_work_flatten c np1 nx1 nt h1 h2 h3 h4
  refine ⟨out, out1, ho, ho1, ?_⟩
  rw [hN, hG1] at hG
  exact (Option.some.inj hG).symm

/-- C15 at `np = 4`, `nx = 3` against `np = 2`, `nx = 6`, with `nt = 5`. -/
theorem partitioning_transparent_witness :
    ∃ out out1, stepper.do_work defaults 4 3 5 = some out ∧
      stepper.do_work defaults 2 6 5 = some out1 ∧ out.flatten = out1.flatten :=
  (partitioning_transparent defaults 4 3 5 (by decide) (by decide) (by decide)
    (by decide)).2 2 6 (by decide) (by decide) (by decide) (by decide) (by decide)

/-! ## Conservation -/

theorem sum_shift_succ (F : Nat → R) (N : Nat) :
    ((List.range N).map fun k => F ((k + 1) % N)).sum = ((List.range N).map F).sum := by
  cases N with
  | zero => rfl
  | succ M =>
    rw [List.sum_range_succ, List.sum_range_succ', Nat.mod_self, add_comm]
    congr 2
    apply List.map_congr_left
    intro k hk
    rw [List.mem_range] at hk
    rw [Nat.mod_eq_of_lt (by omega)]

theorem sum_shift_pred (F : Nat → R) (N : Nat) :
    ((List.range N).map fun k => F ((k + N - 1) % N)).sum = ((List.range N).map F).sum := by
  cases N with
  | zero => rfl
  | succ M =>
    rw [List.sum_range_succ', List.sum_range_succ (fun k => F k), add_comm]
    congr 1
    · apply congrArg List.sum
      apply List.map_congr_left
      intro k hk
      rw [List.mem_range] at hk
      have e : k + 1 + (M + 1) - 1 = k + (M + 1) := by omega
      rw [e, Nat.add_mod_right, Nat.mod_eq_of_lt (by omega)]
    · have e : 0 + (M + 1) - 1 = M := by omega
      rw [e, Nat.mod_eq_of_lt (by omega)]

theorem sum_heat_periodic (c : Consts R) (F : Nat → R) (N : Nat) :
    ((List.range N).map fun k =>
        stepper.heat c (F ((k + N - 1) % N)) (F k) (F ((k + 1) % N))).sum
      = ((List.range N).map F).sum := by
  have h : ∀ k, stepper.heat c (F ((k + N - 1) % N)) (F k) (F ((k + 1) % N))
      = F k + (c.k * c.dt / (c.dx * c.dx)) * (F ((k + N - 1) % N)) +
        ((c.k * c.dt / (c.dx * c.dx)) * (-2) * F k +
          (c.k * c.dt / (c.dx * c.dx)) * F ((k + 1) % N)) := by
    intro k
    unfold stepper.heat
    push_cast
    ring
  simp only [h]
  rw [List.sum_map_add, List.sum_map_add, List.sum_map_add, List.sum_map_mul_left,
    List.sum_map_mul_left, List.sum_map_mul_left, sum_shift_pred F N, sum_shift_succ F N]
  ring

theorem list_eq_map_getD (G : List R) :
    G = (List.range G.length).map fun k => G.getD k 0 := by
  apply List.ext_getElem?
  intro k
  rcases Nat.lt_or_ge k G.length with hk | hk
  · rw [List.getElem?_map, List.getElem?_range hk, Option.map_some', List.getD_eq_getElem?_getD,
      List.getElem?_eq_getElem hk, Option.getD_some]
  · rw [List.getElem?_eq_none hk, List.getElem?_eq_none (by simp; exact hk)]

theorem global_at_getD (c : Consts R) (G : List R) (k : Nat) (hk : k < G.length) :
    global_at c G k = some (stepper.heat c (G.getD ((k + G.length - 1) % G.length) 0)
      (G.getD k 0) (G.getD ((k + 1) % G.length) 0)) := by
  have hpos : 0 < G.length := by omega
  have h1 : (k + G.length - 1) % G.length < G.length := Nat.mod_lt _ hpos
  have h2 : (k + 1) % G.length < G.length := Nat.mod_lt _ hpos
  rw [global_at_eq]
  simp only [List.getD_eq_getElem?_getD, List.getElem?_eq_getElem h1,
    List.getElem?_eq_getElem hk, List.getElem?_eq_getElem h2, Option.getD_some]
  rfl

theorem global_step_sum (c : Consts R) (G G1 : List R) (h : global_step c G = some G1) :
    G1.length = G.length ∧ G1.sum = G.sum := by
  have hmap : (List.range G.length).map (global_at c G)
      = ((List.range G.length).map fun k =>
          stepper.heat c (G.getD ((k + G.length - 1) % G.length) 0) (G.getD k 0)
            (G.getD ((k + 1) % G.length) 0)).map some := by
    rw [List.map_map]
    apply List.map_congr_left
    intro k hk
    rw [List.mem_range] at hk
    rw [global_at_getD c G k hk]
    rfl
  unfold global_step at h
  rw [hmap, publish_map_some] at h
  obtain rfl := Option.some.inj h
  refine ⟨by simp, ?_⟩
  rw [sum_heat_periodic c (fun k => G.getD k 0) G.length]
  exact congrArg List.sum (list_eq_map_getD G).symm

theorem global_generation_sum (c : Consts R) (N nt : Nat) (G : List R)
    (h : global_generation c N nt = some G) :
    G.length = N ∧ G.sum = (global_seed (R := R) N).sum := by
  induction nt generalizing G with
  | zero =>
    have e : global_seed (R := R) N = G := Option.some.inj h
    subst e
    exact ⟨by simp [global_seed], rfl⟩
  | succ t ih =>
    have h1 : (global_generation c N t).bind (global_step c) = some G := h
    obtain ⟨G0, hG0, hstep⟩ := Option.bind_eq_some.mp h1
    obtain ⟨hl0, hs0⟩ := ih G0 hG0
    obtain ⟨hl, hs⟩ := global_step_sum c G0 G hstep
    exact ⟨by rw [hl, hl0], by rw [hs, hs0]⟩

theorem range_sum_mul_two (n : Nat) : (List.range n).sum * 2 = n * (n - 1) := by
  induction n with
  | zero => rfl
  | succ m ih =>
    rw [List.range_succ, List.sum_append, List.sum_singleton, Nat.add_mul, ih,
      Nat.add_sub_cancel]
    cases m with
    | zero => rfl
    | succ k =>
      rw [Nat.add_sub_cancel]
      ring

theorem global_seed_sum (N : Nat) :
    (global_seed (R := R) N).sum = ((N * (N - 1) / 2 : Nat) : R) := by
  have h : (List.range N).sum = N * (N - 1) / 2 := by
    rw [← range_sum_mul_two N, Nat.mul_div_cancel _ (by decide)]
  rw [← h, Nat.cast_list_sum]
  rfl

/-- C16: over exact arithmetic, for `np ≥ 1`, `nx ≥ 2` and every `nt`, the sum
of all `np*nx` values of the space returned by `do_work(np, nx, nt)` equals the
sum of generation 0, which is `N*(N-1)/2` with `N = np*nx`; one generation step
under the periodic boundary preserves the total. -/
theorem conservation (c : Consts R) (_hdx : c.dx ≠ 0) (np nx nt : Nat)
    (hnp : 1 ≤ np) (hnp2 : np < 2 ^ 63) (hnx : 2 ≤ nx) (hw : nx < 2 ^ 64) :
    (∃ out, stepper.do_work c np nx nt = some out ∧
      out.flatten.sum = (spec_seed (R := R) np nx).flatten.sum ∧
      out.flatten.sum = ((np * nx * (np * nx - 1) / 2 : Nat) : R)) ∧
    ∀ g : List (partition_data R), Shape np nx g →
      ∃ g1, spec_step c np g = some g1 ∧ g1.flatten.sum = g.flatten.sum := by
  constructor
  · obtain ⟨out, ho, _, hG⟩ := do_work_flatten c np nx nt hnp hnp2 hnx hw
    obtain ⟨_, hsum⟩ := global_generation_sum c (np * nx) nt _ hG
    exact ⟨out, ho, by rw [hsum, spec_seed_flatten], by rw [hsum, global_seed_sum]⟩
  · intro g hg
    obtain ⟨g1, hg1, _⟩ := spec_step_some c np nx g hg hnp hnx hw
    have hstep := global_step_flatten c np nx g g1 hg hnp hnp2 hnx hw hg1
    exact ⟨g1, hg1, (global_step_sum c _ _ hstep).2⟩

/-- C16 at `k = 0.5`, `dt = 1`, `dx = 1`, `np = 4`, `nx = 3`, `nt = 9`: the twelve
values sum to `66`. -/
theorem conservation_witness :
    ∃ out, stepper.do_work defaults 4 3 9 = some out ∧
      out.flatten.sum = (spec_seed (R := ℚ) 4 3).flatten.sum ∧
      out.flatten.sum = ((4 * 3 * (4 * 3 - 1) / 2 : Nat) : ℚ) :=
  (conservation defaults (by norm_num [defaults]) 4 3 9 (by decide) (by decide) (by decide)
    (by decide)).1

end transparency

end Stencil
